import Mathlib

/-!
Verification development for `xenium::ramalhete_queue`
(src/xenium/ramalhete_queue.hpp), an implementation of the
Ramalhete/Correia FAAArrayQueue: a segmented-array FIFO queue of pointers.

The embedding models a sequential (single-thread) execution of the queue:
every atomic read-modify-write is resolved deterministically, and a
compare-and-swap on a shared pointer (`next`, `head`, `tail`) succeeds
exactly when its expected value matches, which in a single-thread run is
decided by the state alone.  Pointers are modelled as natural numbers with
`0` for `nullptr`; node addresses are modelled by fresh identifiers handed
out by an allocation counter.  Separate, oracle-driven models of a single
iteration of the `push` / `try_pop` loop bodies (where the outcome of each
contended atomic step is an unconstrained parameter) cover the properties
about racing threads: which code paths free or reclaim nodes, and the
bounded spin-wait.
-/

set_option linter.unusedVariables false

namespace Ramalhete

/-- Modelled from the spec: the slot cell type `marked_value =
reclamation::detail::marked_ptr<T, 1>` (the header
`xenium/reclamation/detail/marked_ptr.hpp` is not among the sources).
Per spec §3 and §9 a slot is a value-sized atomic cell with one reserved
tag bit: `ptr` is the stored pointer (`0` encodes `nullptr`) and `mark`
the tag bit used exclusively to mark a consumed slot (tombstone).
Equality compares the whole cell, so a tombstone differs from the plain
`nullptr` pattern. -/
structure MVal where
  ptr : Nat
  mark : Bool
deriving DecidableEq, Repr

/-- The cell pattern of a plain `nullptr` with no mark: an "empty" slot. -/
def MVal.emptyV : MVal := ⟨0, false⟩

/-- The cell pattern `marked_value(nullptr, 1)`: the tombstone `try_pop`
exchanges into a claimed slot (line 272). -/
def MVal.tombV : MVal := ⟨0, true⟩

/-- One queue segment, translated from `struct node` (lines 132-148):
`entries` is the slot array (length `entries_per_node`, written `N`
throughout), `pop_idx` and `push_idx` the two cursors.  `nid` models the
node's identity (its address); the `next` links are represented
positionally by `QState.segs`. -/
structure Node where
  nid : Nat
  pop_idx : Nat
  push_idx : Nat
  entries : List MVal
deriving DecidableEq, Repr

/-- Translated from `node::node(T* item)` (lines 139-147): pop cursor `0`,
push cursor `1`, the first entry pre-filled by a plain store of `item`
(storing `item = 0` yields the empty pattern), every other entry
`nullptr` (empty). -/
def mkNode (N nid item : Nat) : Node :=
  { nid := nid, pop_idx := 0, push_idx := 1,
    entries := MVal.mk item false :: List.replicate (N - 1) MVal.emptyV }

/-- Queue state of a sequential execution.  `segs` is the chain of live
nodes starting at `head` (the `next` pointer of `segs[i]` refers to
`segs[i+1]` and is `nullptr` for the last node); `tailIdx` is the position
in the chain the `tail` pointer refers to; `allocs` counts node
allocations and hands out the fresh `nid`s. -/
structure QState where
  segs : List Node
  tailIdx : Nat
  allocs : Nat
deriving DecidableEq, Repr

/-- Translated from the constructor `ramalhete_queue()` (lines 154-161):
one sentinel node built by `new node(nullptr)` (so every entry holds the
empty pattern, the first by the pre-fill store of `nullptr`) whose push
cursor is then reset to `0`; `head` and `tail` both point at it. -/
def initQ (N : Nat) : QState :=
  { segs := [{ nid := 0, pop_idx := 0, push_idx := 0,
               entries := MVal.mk 0 false :: List.replicate (N - 1) MVal.emptyV }],
    tailIdx := 0, allocs := 1 }

/-- Translated from the retry loop of `push` (lines 186-230), resolved for
a sequential execution and driven by explicit `fuel` (the loop in the
source is unbounded; `none` means the fuel ran out).  In order: acquire
the tail node (line 188); `push_idx.fetch_add(1)` (line 190); if the
claimed index is past the last entry (`idx > entries_per_node - 1`,
line 191): re-check `t != tail.load` (line 194, never true in a
single-thread run since nothing else moves `tail`), then load `next`
(line 197) — if non-null help advance `tail` and retry (lines 214-220),
otherwise allocate `new node(value)` and link it with the `next`
compare-and-swap, which in a sequential run succeeds, then advance `tail`
(lines 200-210) and return.  For an in-range index, compare-and-swap the
slot from the empty pattern to the value (line 226); on failure invoke
backoff and retry (line 229). -/
def pushLoop (N v : Nat) : Nat → QState → Option QState
  | 0, _ => none
  | fuel + 1, q =>
    match q.segs[q.tailIdx]? with
    | none => none
    | some t =>
      let idx := t.push_idx
      let t1 : Node := { t with push_idx := t.push_idx + 1 }
      let q1 : QState := { q with segs := q.segs.set q.tailIdx t1 }
      if N ≤ idx then
        if (q1.segs[q1.tailIdx]?).map Node.nid ≠ some t.nid then
          pushLoop N v fuel q1
        else
          match q1.segs[q1.tailIdx + 1]? with
          | some _ => pushLoop N v fuel { q1 with tailIdx := q1.tailIdx + 1 }
          | none =>
            some { segs := q1.segs ++ [mkNode N q1.allocs v],
                   tailIdx := q1.tailIdx + 1,
                   allocs := q1.allocs + 1 }
      else
        match t1.entries[idx]? with
        | none => none
        | some cell =>
          if cell = MVal.emptyV then
            some { q1 with
                   segs := q1.segs.set q1.tailIdx
                     { t1 with entries := t1.entries.set idx (MVal.mk v false) } }
          else
            pushLoop N v fuel q1

/-- Error taxonomy of `push`: `std::invalid_argument` for a null value
(line 181), `std::bad_alloc` for a failed node allocation (line 200). -/
inductive QErr where
  | invalidArgument
  | allocFailure
deriving DecidableEq, Repr

/-- Translated from `push` (lines 177-231): the null check (lines 180-181)
throws `std::invalid_argument` before any atomic step, so an error result
carries the untouched queue state; otherwise the retry loop runs.  An
outer `none` means the fuel ran out. -/
def push (N fuel : Nat) (q : QState) (v : Nat) :
    Option (Except (QErr × QState) QState) :=
  if v = 0 then some (Except.error (QErr.invalidArgument, q))
  else (pushLoop N v fuel q).map Except.ok

/-- Translated from the retry loop of `try_pop` (lines 239-281), resolved
for a sequential execution.  In order: acquire the head node (line 241);
the emptiness check `pop_idx >= push_idx && next == nullptr` (lines
243-245) breaks out returning `false` before any cursor moves;
`pop_idx.fetch_add(1)` (line 247); a claimed index past the last entry
(line 248) means the node is drained: if it has no next node return
`false` (line 254, the cursor stays bumped), otherwise swing `head` to the
next node — the compare-and-swap succeeds in a sequential run — hand the
old node to deferred reclamation (lines 256-259) and retry.  For an
in-range index the bounded spin (lines 264-269) only re-reads the slot, so
it does not change the sequential state; then exchange the slot with the
tombstone (line 272): a non-empty prior cell is returned as the popped
value (lines 273-276), an empty one means a backoff and retry
(line 278). -/
def popLoop (N : Nat) : Nat → QState → Option (Option Nat × QState)
  | 0, _ => none
  | fuel + 1, q =>
    match q.segs with
    | [] => none
    | h :: rest =>
      if h.push_idx ≤ h.pop_idx ∧ rest = [] then
        some (none, q)
      else
        let idx := h.pop_idx
        let h1 : Node := { h with pop_idx := h.pop_idx + 1 }
        if N ≤ idx then
          match rest with
          | [] => some (none, { q with segs := [h1] })
          | _ :: _ =>
            popLoop N fuel { q with segs := rest, tailIdx := q.tailIdx - 1 }
        else
          match h1.entries[idx]? with
          | none => none
          | some cell =>
            let q2 : QState := { q with
              segs := { h1 with entries := h1.entries.set idx MVal.tombV } :: rest }
            if cell ≠ MVal.emptyV then
              some (some cell.ptr, q2)
            else
              popLoop N fuel q2

/-- Translated from `try_pop` (lines 233-282): runs the retry loop; the
first component is `some value` when `try_pop` returns `true` and `none`
when it returns `false`. -/
def try_pop (N fuel : Nat) (q : QState) : Option (Option Nat × QState) :=
  popLoop N fuel q

/-- Translated from the retry loop of `push` exactly as `pushLoop`, but
executing in an environment where `new node(value)` (line 200) throws
`std::bad_alloc`: the exception propagates out of `push` (there is no
handler), and the error result carries the queue state at the throw. -/
def pushLoopOOM (N v : Nat) : Nat → QState → Option (Except QState QState)
  | 0, _ => none
  | fuel + 1, q =>
    match q.segs[q.tailIdx]? with
    | none => none
    | some t =>
      let idx := t.push_idx
      let t1 : Node := { t with push_idx := t.push_idx + 1 }
      let q1 : QState := { q with segs := q.segs.set q.tailIdx t1 }
      if N ≤ idx then
        if (q1.segs[q1.tailIdx]?).map Node.nid ≠ some t.nid then
          pushLoopOOM N v fuel q1
        else
          match q1.segs[q1.tailIdx + 1]? with
          | some _ => pushLoopOOM N v fuel { q1 with tailIdx := q1.tailIdx + 1 }
          | none => some (Except.error q1)
      else
        match t1.entries[idx]? with
        | none => none
        | some cell =>
          if cell = MVal.emptyV then
            some (Except.ok { q1 with
              segs := q1.segs.set q1.tailIdx
                { t1 with entries := t1.entries.set idx (MVal.mk v false) } })
          else
            pushLoopOOM N v fuel q1

/-- Push every value of the list in order (each call with the given fuel). -/
def pushAll (N fuel : Nat) : List Nat → QState → Option QState
  | [], q => some q
  | v :: vs, q =>
    match pushLoop N v fuel q with
    | some q' => pushAll N fuel vs q'
    | none => none

/-- Perform `k` calls of `try_pop`, requiring every one of them to succeed;
returns the popped values in order. -/
def popAllStrict (N fuel : Nat) : Nat → QState → Option (List Nat × QState)
  | 0, q => some ([], q)
  | k + 1, q =>
    match popLoop N fuel q with
    | some (some v, q') =>
      (popAllStrict N fuel k q').map fun r => (v :: r.1, r.2)
    | _ => none

/-- An API call of the queue. -/
inductive Op where
  | push (v : Nat)
  | pop
deriving DecidableEq, Repr

/-- Run a sequence of API calls, accumulating the values passed to
successful pushes and the values returned by successful pops.  A push of
the null value throws `std::invalid_argument` and changes nothing; a
`try_pop` returning `false` changes nothing but the states the loop
already committed.  `none` means some call ran out of fuel. -/
def runOps (N fuel : Nat) :
    List Op → QState → List Nat → List Nat → Option (QState × List Nat × List Nat)
  | [], q, pushed, popped => some (q, pushed, popped)
  | Op.push v :: ops, q, pushed, popped =>
    if v = 0 then runOps N fuel ops q pushed popped
    else
      match pushLoop N v fuel q with
      | some q' => runOps N fuel ops q' (pushed ++ [v]) popped
      | none => none
  | Op.pop :: ops, q, pushed, popped =>
    match popLoop N fuel q with
    | some (some v, q') => runOps N fuel ops q' pushed (popped ++ [v])
    | some (none, q') => runOps N fuel ops q' pushed popped
    | none => none

/-- Capacity actually usable in a node: the push cursor clamped to `N`. -/
def cap (N : Nat) (n : Node) : Nat := min n.push_idx N

/-- The raw pointer stored in slot `i` (0 past the end). -/
def slotVal (n : Node) (i : Nat) : Nat :=
  match n.entries[i]? with
  | some c => c.ptr
  | none => 0

/-- Abstraction: the published, not yet consumed values of one segment, in
slot order — the slots between the pop cursor and the clamped push
cursor. -/
def Node.vals (N : Nat) (n : Node) : List Nat :=
  (List.range' n.pop_idx (cap N n - n.pop_idx)).map (slotVal n)

/-- Abstraction: the FIFO contents of the whole queue. -/
def toList (N : Nat) (q : QState) : List Nat :=
  (q.segs.map (Node.vals N)).flatten

/-- Does an (optional) cell hold a published value: unmarked and non-null. -/
def cellIsVal : Option MVal → Bool
  | some c => !c.mark && c.ptr != 0
  | none => false

/-- Per-segment invariant of sequential runs: the slot array has length
`entries_per_node`; the pop cursor is at most the clamped push cursor;
slots below the pop cursor are tombstones, slots between the cursors hold
published values, slots at or past the clamped push cursor are empty. -/
def SegWF (N : Nat) (n : Node) : Prop :=
  n.entries.length = N ∧
  n.pop_idx ≤ cap N n ∧
  ∀ i, i < N →
    (i < n.pop_idx → n.entries[i]? = some MVal.tombV) ∧
    (n.pop_idx ≤ i → i < cap N n → cellIsVal n.entries[i]? = true) ∧
    (cap N n ≤ i → n.entries[i]? = some MVal.emptyV)

/-- Whole-queue invariant of sequential runs: the chain is non-empty,
`tail` points at its last node, every node satisfies `SegWF`, every
non-last node's push cursor is stuck at `entries_per_node + 1` (the bump
that triggered appending its successor), every non-head node has pop
cursor `0` and a non-zero push cursor (it was created pre-filled), and
the last node's push cursor has not gone past `entries_per_node`. -/
def WF (N : Nat) (q : QState) : Prop :=
  0 < q.segs.length ∧
  q.tailIdx + 1 = q.segs.length ∧
  (∀ n ∈ q.segs, SegWF N n) ∧
  (∀ i, i < q.segs.length - 1 → (q.segs[i]?).map Node.push_idx = some (N + 1)) ∧
  (∀ i, i < q.segs.length → 0 < i →
    (q.segs[i]?).map Node.pop_idx = some 0 ∧
    (q.segs[i]?).map Node.push_idx ≠ some 0) ∧
  ((q.segs[q.segs.length - 1]?).map Node.push_idx).getD 0 ≤ N

instance decSegWF (N : Nat) (n : Node) : Decidable (SegWF N n) := by
  unfold SegWF
  infer_instance

instance decWF (N : Nat) (q : QState) : Decidable (WF N q) := by
  unfold WF
  infer_instance

/-- Translated from the slot publish step of `push` (lines 224-227): the
compare-and-swap of one entry from the empty pattern to the value.
Returns (whether it succeeded, the cell afterwards). -/
def slotCas (cell : MVal) (v : Nat) : Bool × MVal :=
  if cell = MVal.emptyV then (true, MVal.mk v false) else (false, cell)

/-- Translated from the slot consume step of `try_pop` (line 272): the
unconditional exchange with the tombstone.  Returns (the cell before, the
cell afterwards). -/
def slotXchg (cell : MVal) : MVal × MVal :=
  (cell, MVal.tombV)

/-- Rank of a cell in the empty → published → tombstone slot lifecycle. -/
def slotRank (cell : MVal) : Nat :=
  if cell.mark then 2 else if cell.ptr = 0 then 0 else 1

/-- Translated from the `pop_retries` policy default (line 83 and spec §6):
the bounded spin count of `try_pop`. -/
def pop_retries_default : Nat := 10

/-- Translated from the bounded spin of `try_pop` (lines 264-269):
`while (h->entries[idx].value.load(...) == nullptr && ++cnt <= pop_retries)`.
`obs k` is the cell the `k`-th relaxed load observes (concurrent pushes
may publish between loads); the first `Nat` is the remaining budget
`pop_retries - cnt`; the result counts the iterations executed. -/
def spinIters (obs : Nat → MVal) : Nat → Nat → Nat
  | 0, _ => 0
  | budget + 1, k =>
    if obs k = MVal.emptyV then spinIters obs budget (k + 1) + 1 else 0

/-- Observable actions of one iteration of a `push` / `try_pop` loop body:
allocating a node (`new node`), linking a node into the chain (the
successful `next` compare-and-swap), advancing `tail`, synchronously
freeing a node (`delete`), unlinking the head node (the successful `head`
compare-and-swap), handing a node to deferred reclamation
(`guard_ptr::reclaim`), publishing into a slot, one polling load of the
bounded spin, the tombstone exchange on a claimed slot index, returning
from the call, and retrying the loop. -/
inductive Act where
  | alloc (nid : Nat)
  | link (src dst : Nat)
  | tailAdv
  | freeNode (nid : Nat)
  | unlinkHead (nid : Nat)
  | deferReclaim (nid : Nat)
  | publishSlot (idx : Nat)
  | poll
  | xchgSlot (idx : Nat)
  | ret
  | retry
deriving DecidableEq, Repr

/-- Environment of one iteration of the `push` loop body (lines 186-230)
under concurrency: each field resolves one interaction with shared state.
`idxOver` says whether the index the `fetch_add` (line 190) claimed is
past the last entry; `tailMoved` whether `t != tail.load()` at line 194;
`nextNonNull` whether `t->next.load()` at line 197 is non-null;
`nextCasOk` whether the `next` compare-and-swap (line 203) succeeds;
`casOk` whether the slot compare-and-swap (line 226) succeeds; `tId` is
the identity of the acquired tail node, `freshId` the address `new node`
returns, `idx` the claimed index. -/
structure PushEnv where
  idxOver : Bool
  tailMoved : Bool
  nextNonNull : Bool
  nextCasOk : Bool
  casOk : Bool
  tId : Nat
  freshId : Nat
  idx : Nat

/-- The actions one iteration of the `push` loop body performs, translated
from lines 186-230 with every contended outcome supplied by `e`: a full
node with a moved tail just retries (line 195); a full node with a
non-null next helps advance `tail` and retries (lines 214-220); a full
node with null next allocates, and either wins the `next` compare-and-swap
(link it, advance `tail`, return — lines 200-211) or loses it and deletes
its own allocation (line 213); an in-range index publishes via the slot
compare-and-swap (line 226) or retries (line 229). -/
def pushIter (e : PushEnv) : List Act :=
  if e.idxOver then
    if e.tailMoved then [Act.retry]
    else if e.nextNonNull then [Act.tailAdv, Act.retry]
    else if e.nextCasOk then
      [Act.alloc e.freshId, Act.link e.tId e.freshId, Act.tailAdv, Act.ret]
    else [Act.alloc e.freshId, Act.freeNode e.freshId, Act.retry]
  else if e.casOk then [Act.publishSlot e.idx, Act.ret]
  else [Act.retry]

/-- Environment of one iteration of the `try_pop` loop body (lines
239-279) under concurrency: `emptyObserved` is the emptiness check of
lines 243-244; `idxOver` whether the claimed index (line 247) is past the
last entry; `nextNonNull` whether `h->next.load()` at line 252 is
non-null; `headCasOk` whether the `head` compare-and-swap (line 258)
succeeds; `xchgNonNull` whether the exchange (line 272) returned a
non-null cell; `hId` is the identity of the acquired head node, `idx` the
claimed index, `slotObs` the cells the spin's successive loads observe. -/
structure PopEnv where
  emptyObserved : Bool
  idxOver : Bool
  nextNonNull : Bool
  headCasOk : Bool
  xchgNonNull : Bool
  hId : Nat
  idx : Nat
  slotObs : Nat → MVal

/-- The actions one iteration of the `try_pop` loop body performs,
translated from lines 239-279 with every contended outcome supplied by
`e`: an observed-empty queue returns immediately (line 245); a drained
node with no next returns (line 254); a drained node with a next is
unlinked if the `head` compare-and-swap wins, and then handed to deferred
reclamation (lines 256-261), else the loop just retries; an in-range
index runs the bounded spin (lines 264-269) and then, in every case,
the tombstone exchange (line 272), returning the value if one was
published and retrying otherwise. -/
def popIter (pop_retries : Nat) (e : PopEnv) : List Act :=
  if e.emptyObserved then [Act.ret]
  else if e.idxOver then
    if e.nextNonNull = false then [Act.ret]
    else if e.headCasOk then
      [Act.unlinkHead e.hId, Act.deferReclaim e.hId, Act.retry]
    else [Act.retry]
  else
    List.replicate (spinIters e.slotObs pop_retries 0) Act.poll ++
      Act.xchgSlot e.idx :: (if e.xchgNonNull then [Act.ret] else [Act.retry])

/-- The node identities of the chain, head first. -/
def idsOf (q : QState) : List Nat := q.segs.map Node.nid

/-- The set next-links of the chain, as (node, its next) identity pairs. -/
def linkPairs (q : QState) : List (Nat × Nat) :=
  (idsOf q).zip (idsOf q).tail

/-- Identity hygiene: distinct node addresses, all previously handed out
by the allocation counter. -/
def GoodIds (q : QState) : Prop :=
  (idsOf q).Nodup ∧ ∀ n ∈ q.segs, n.nid < q.allocs

/-- Per-segment monotonicity between two states: the allocation counter
never decreases; every node of the later state is an old node or a fresh
allocation; a node present in both states never sees its push or pop
cursor decrease; and a next-link, once set, stays exactly as it was for
as long as its node remains in the chain. -/
def Mono (q q' : QState) : Prop :=
  q.allocs ≤ q'.allocs ∧
  (∀ n' ∈ q'.segs, n'.nid ∈ idsOf q ∨ q.allocs ≤ n'.nid) ∧
  (∀ n ∈ q.segs, ∀ n' ∈ q'.segs, n.nid = n'.nid →
    n.pop_idx ≤ n'.pop_idx ∧ n.push_idx ≤ n'.push_idx) ∧
  (∀ p ∈ linkPairs q, p.1 ∈ idsOf q' → p ∈ linkPairs q')

instance decGoodIds (q : QState) : Decidable (GoodIds q) := by
  unfold GoodIds
  infer_instance

instance decMono (q q' : QState) : Decidable (Mono q q') := by
  unfold Mono
  infer_instance

example : pushAll 4 2 [1, 2, 3, 4, 5] (initQ 4) =
    some { segs := [⟨0, 0, 5, [⟨1, false⟩, ⟨2, false⟩, ⟨3, false⟩, ⟨4, false⟩]⟩,
                    ⟨1, 0, 1, [⟨5, false⟩, ⟨0, false⟩, ⟨0, false⟩, ⟨0, false⟩]⟩],
           tailIdx := 1, allocs := 2 } := by decide

example : (pushAll 4 2 [1, 2, 3, 4, 5] (initQ 4)).map (toList 4) =
    some [1, 2, 3, 4, 5] := by decide

example : ((pushAll 4 2 [1, 2, 3, 4, 5] (initQ 4)).bind fun q =>
    popAllStrict 4 2 5 q).map Prod.fst = some [1, 2, 3, 4, 5] := by decide

example : try_pop 3 2 (initQ 3) = some (none, initQ 3) := by decide

/-! ## Basic facts about cells, segments and the abstraction -/

lemma cellIsVal_iff (o : Option MVal) :
    cellIsVal o = true ↔ ∃ p, p ≠ 0 ∧ o = some (MVal.mk p false) := by
  cases o with
  | none => simp [cellIsVal]
  | some c =>
    obtain ⟨p, m⟩ := c
    simp only [cellIsVal, Bool.and_eq_true, Bool.not_eq_true', bne_iff_ne, ne_eq,
      Option.some.injEq, MVal.mk.injEq]
    constructor
    · rintro ⟨hm, hp⟩
      exact ⟨p, hp, rfl, hm⟩
    · rintro ⟨p', hp, rfl, rfl⟩
      exact ⟨rfl, hp⟩

lemma eq_append_last {α : Type} :
    ∀ (L : List α) (k : Nat) (t : α), k + 1 = L.length → L[k]? = some t →
      ∃ A, L = A ++ [t] ∧ ∀ u, L.set k u = A ++ [u]
  | [], k, t, hk, ht => by simp at ht
  | x :: L, 0, t, hk, ht => by
    have hL : L = [] := List.length_eq_zero.mp (by simpa using hk.symm)
    subst hL
    have hx : x = t := by simpa using ht
    subst hx
    exact ⟨[], rfl, fun u => rfl⟩
  | x :: L, k + 1, t, hk, ht => by
    have hk' : k + 1 = L.length := by simpa using hk
    have ht' : L[k]? = some t := by simpa using ht
    obtain ⟨A, hA, hset⟩ := eq_append_last L k t hk' ht'
    exact ⟨x :: A, by simp [hA], fun u => by simp [hset u]⟩

lemma vals_length (N : Nat) (n : Node) :
    (Node.vals N n).length = cap N n - n.pop_idx := by
  simp [Node.vals]

lemma vals_eq_nil_iff (N : Nat) (n : Node) :
    Node.vals N n = [] ↔ cap N n ≤ n.pop_idx := by
  simp [Node.vals, Nat.sub_eq_zero_iff_le]

lemma vals_cons (N : Nat) (n : Node) (h : n.pop_idx < cap N n) :
    Node.vals N n =
      slotVal n n.pop_idx ::
        (List.range' (n.pop_idx + 1) (cap N n - (n.pop_idx + 1))).map (slotVal n) := by
  unfold Node.vals
  have h1 : cap N n - n.pop_idx = (cap N n - (n.pop_idx + 1)) + 1 := by omega
  rw [h1, List.range'_succ]
  rfl

lemma vals_congr (N : Nat) (n' n : Node) (hpop : n'.pop_idx = n.pop_idx)
    (hcap : cap N n' = cap N n)
    (hs : ∀ i, n.pop_idx ≤ i → i < cap N n → slotVal n' i = slotVal n i) :
    Node.vals N n' = Node.vals N n := by
  unfold Node.vals
  rw [hpop, hcap]
  refine List.map_congr_left fun i hi => ?_
  have hm := List.mem_range'_1.mp hi
  exact hs i hm.1 (by omega)

lemma slotVal_of_get (n : Node) (i : Nat) (c : MVal) (h : n.entries[i]? = some c) :
    slotVal n i = c.ptr := by
  simp [slotVal, h]

lemma toList_decomp (N : Nat) (q : QState) (A : List Node) (t : Node)
    (h : q.segs = A ++ [t]) :
    toList N q = (A.map (Node.vals N)).flatten ++ Node.vals N t := by
  simp [toList, h]

lemma toList_cons (N : Nat) (q : QState) (h : Node) (rest : List Node)
    (hq : q.segs = h :: rest) :
    toList N q = Node.vals N h ++ (rest.map (Node.vals N)).flatten := by
  simp [toList, hq]

lemma SegWF.len {N : Nat} {n : Node} (h : SegWF N n) : n.entries.length = N := h.1

lemma SegWF.pop_le {N : Nat} {n : Node} (h : SegWF N n) : n.pop_idx ≤ cap N n := h.2.1

lemma cap_le {N : Nat} (n : Node) : cap N n ≤ N := Nat.min_le_right _ _

lemma SegWF.tomb {N : Nat} {n : Node} (h : SegWF N n) {i : Nat} (hi : i < n.pop_idx) :
    n.entries[i]? = some MVal.tombV :=
  (h.2.2 i (lt_of_lt_of_le hi (le_trans h.pop_le (cap_le n)))).1 hi

lemma SegWF.val {N : Nat} {n : Node} (h : SegWF N n) {i : Nat}
    (h1 : n.pop_idx ≤ i) (h2 : i < cap N n) :
    cellIsVal n.entries[i]? = true :=
  ((h.2.2 i (lt_of_lt_of_le h2 (cap_le n))).2).1 h1 h2

lemma SegWF.emptyPast {N : Nat} {n : Node} (h : SegWF N n) {i : Nat}
    (h1 : cap N n ≤ i) (h2 : i < N) :
    n.entries[i]? = some MVal.emptyV :=
  ((h.2.2 i h2).2).2 h1

lemma SegWF_mkNode (N nid v : Nat) (hN : 0 < N) (hv : v ≠ 0) :
    SegWF N (mkNode N nid v) := by
  have hcap : cap N (mkNode N nid v) = 1 := by
    simp [cap, mkNode]
    omega
  refine ⟨by simp [mkNode]; omega, by simp [mkNode, hcap], fun i hiN => ?_⟩
  rw [hcap]
  refine ⟨fun h => by simp [mkNode] at h, fun h1 h2 => ?_, fun h1 => ?_⟩
  · have : i = 0 := by omega
    subst this
    simp [mkNode, cellIsVal, hv]
  · match i, h1 with
    | j + 1, _ =>
      simp only [mkNode, List.getElem?_cons_succ]
      rw [List.getElem?_replicate_of_lt (by omega)]

lemma vals_mkNode (N nid v : Nat) (hN : 0 < N) :
    Node.vals N (mkNode N nid v) = [v] := by
  have hcap : cap N (mkNode N nid v) = 1 := by
    simp [cap, mkNode]
    omega
  unfold Node.vals
  rw [hcap]
  simp [slotVal, mkNode]

lemma WF_initQ (N : Nat) (hN : 0 < N) : WF N (initQ N) := by
  refine ⟨by simp [initQ], by simp [initQ], ?_, by simp [initQ],
    by simp [initQ], by simp [initQ]⟩
  intro n hn
  have hn' :
      n = ⟨0, 0, 0, MVal.mk 0 false :: List.replicate (N - 1) MVal.emptyV⟩ := by
    simpa [initQ] using hn
  subst hn'
  have hcap :
      cap N (⟨0, 0, 0, MVal.mk 0 false :: List.replicate (N - 1) MVal.emptyV⟩ : Node)
        = 0 := by
    simp [cap]
  refine ⟨by simp; omega, by simp [hcap], fun i hiN => ?_⟩
  rw [hcap]
  refine ⟨fun h => absurd h (Nat.not_lt_zero i), fun _ h => absurd h (Nat.not_lt_zero i),
    fun _ => ?_⟩
  match i with
  | 0 => simp [MVal.emptyV]
  | j + 1 =>
    simp only [List.getElem?_cons_succ]
    rw [List.getElem?_replicate_of_lt (by omega)]

lemma toList_initQ (N : Nat) : toList N (initQ N) = [] := by
  simp [toList, initQ, Node.vals, cap]

/-! ## The sequential behaviour of `push` -/

lemma slotVal_congr (n n' : Node) (i : Nat) (h : n'.entries[i]? = n.entries[i]?) :
    slotVal n' i = slotVal n i := by
  unfold slotVal
  rw [h]

lemma pushLoop_spec {N : Nat} (v fuel : Nat) (q : QState)
    (hwf : WF N q) (hN : 0 < N) (hv : v ≠ 0) :
    ∃ q', pushLoop N v (fuel + 1) q = some q' ∧ WF N q' ∧
      toList N q' = toList N q ++ [v] := by
  obtain ⟨hpos, htail, hseg, hfull, hrestc, hlast⟩ := hwf
  have hklt : q.tailIdx < q.segs.length := by omega
  obtain ⟨t, ht⟩ : ∃ u, q.segs[q.tailIdx]? = some u := by
    rw [List.getElem?_eq_getElem hklt]
    exact ⟨_, rfl⟩
  have htmem : t ∈ q.segs := List.getElem?_mem ht
  have hsw : SegWF N t := hseg t htmem
  have hNlen : t.entries.length = N := hsw.len
  have hlen1 : q.segs.length - 1 = q.tailIdx := by omega
  have hpushle : t.push_idx ≤ N := by
    rw [hlen1, ht] at hlast
    simpa using hlast
  obtain ⟨A, hA, hAset⟩ := eq_append_last q.segs q.tailIdx t htail ht
  rcases Nat.lt_or_ge t.push_idx N with hlt | hge
  · -- in-range claimed index: the slot CAS publishes the value
    have hcap : cap N t = t.push_idx := Nat.min_eq_left (Nat.le_of_lt hlt)
    have hpople : t.pop_idx ≤ t.push_idx := hcap ▸ hsw.pop_le
    have hemp : t.entries[t.push_idx]? = some MVal.emptyV := hsw.emptyPast hcap.le hlt
    set t2 : Node :=
      ⟨t.nid, t.pop_idx, t.push_idx + 1, t.entries.set t.push_idx (MVal.mk v false)⟩
      with ht2
    have hset2 : q.segs.set q.tailIdx t2 = A ++ [t2] := hAset t2
    have hcap2 : cap N t2 = t.push_idx + 1 := by
      rw [ht2]
      simp [cap]
      omega
    refine ⟨{ q with segs := q.segs.set q.tailIdx t2 }, ?_, ?_, ?_⟩
    · simp only [pushLoop, ht]
      rw [if_neg (by omega : ¬ N ≤ t.push_idx)]
      simp only [hemp, if_true]
      rw [List.set_set]
    · refine ⟨by simpa using hpos, by simpa using htail, ?_, ?_, ?_, ?_⟩
      · intro n hn
        rcases List.mem_or_eq_of_mem_set hn with h | h
        · exact hseg n h
        · subst h
          refine ⟨?_, ?_, fun i hiN => ?_⟩
          · show (t.entries.set t.push_idx (MVal.mk v false)).length = N
            simp [hNlen]
          · show t.pop_idx ≤ cap N t2
            rw [hcap2]
            omega
          · rw [hcap2]
            refine ⟨fun h1 => ?_, fun h1 h2 => ?_, fun h1 => ?_⟩
            · have h1' : i < t.pop_idx := h1
              show (t.entries.set t.push_idx (MVal.mk v false))[i]? = some MVal.tombV
              rw [List.getElem?_set_ne (by omega)]
              exact hsw.tomb h1'
            · have h1' : t.pop_idx ≤ i := h1
              show cellIsVal (t.entries.set t.push_idx (MVal.mk v false))[i]? = true
              rcases Nat.lt_or_ge i t.push_idx with hi | hi
              · rw [List.getElem?_set_ne (by omega)]
                exact hsw.val h1' (by omega)
              · have hieq : i = t.push_idx := by omega
                subst hieq
                rw [List.getElem?_set_self (by rw [hNlen]; exact hlt)]
                simp [cellIsVal, hv]
            · show (t.entries.set t.push_idx (MVal.mk v false))[i]? = some MVal.emptyV
              rw [List.getElem?_set_ne (by omega)]
              exact hsw.emptyPast (by omega) hiN
      · intro i hi
        simp only [List.length_set] at hi
        show ((q.segs.set q.tailIdx t2)[i]?).map Node.push_idx = some (N + 1)
        rw [List.getElem?_set_ne (by omega)]
        exact hfull i hi
      · intro i hi hi0
        simp only [List.length_set] at hi
        rcases eq_or_ne i q.tailIdx with h | h
        · subst h
          show ((q.segs.set q.tailIdx t2)[q.tailIdx]?).map Node.pop_idx = some 0 ∧
            ((q.segs.set q.tailIdx t2)[q.tailIdx]?).map Node.push_idx ≠ some 0
          rw [List.getElem?_set_self hklt]
          have hr := hrestc q.tailIdx hi hi0
          rw [ht] at hr
          have hpop0 : t.pop_idx = 0 := by simpa using hr.1
          constructor
          · show some t2.pop_idx = some 0
            rw [ht2]
            simpa using hpop0
          · show ¬ some t2.push_idx = some 0
            rw [ht2]
            simp
        · show ((q.segs.set q.tailIdx t2)[i]?).map Node.pop_idx = some 0 ∧
            ((q.segs.set q.tailIdx t2)[i]?).map Node.push_idx ≠ some 0
          rw [List.getElem?_set_ne (Ne.symm h)]
          exact hrestc i hi hi0
      · show (((q.segs.set q.tailIdx t2)[(q.segs.set q.tailIdx t2).length - 1]?).map
          Node.push_idx).getD 0 ≤ N
        simp only [List.length_set, hlen1]
        rw [List.getElem?_set_self hklt, ht2]
        simpa using hlt
    · rw [toList_decomp N _ A t2 (by simpa using hset2), toList_decomp N q A t hA,
        List.append_assoc]
      congr 1
      show Node.vals N t2 = Node.vals N t ++ [v]
      unfold Node.vals
      rw [hcap2, hcap]
      show (List.range' t.pop_idx (t.push_idx + 1 - t.pop_idx)).map (slotVal t2) = _
      have hcount : t.push_idx + 1 - t.pop_idx = (t.push_idx - t.pop_idx) + 1 := by
        omega
      rw [hcount, List.range'_concat]
      have hlastidx : t.pop_idx + 1 * (t.push_idx - t.pop_idx) = t.push_idx := by omega
      rw [hlastidx, List.map_append]
      congr 1
      · refine List.map_congr_left fun i hi => ?_
        have hm := List.mem_range'_1.mp hi
        refine slotVal_congr t t2 i ?_
        show (t.entries.set t.push_idx (MVal.mk v false))[i]? = t.entries[i]?
        exact List.getElem?_set_ne (by omega)
      · show [slotVal t2 t.push_idx] = [v]
        have hg : t2.entries[t.push_idx]? = some (MVal.mk v false) := by
          show (t.entries.set t.push_idx (MVal.mk v false))[t.push_idx]? = _
          exact List.getElem?_set_self (by rw [hNlen]; exact hlt)
        rw [slotVal_of_get t2 _ _ hg]
  · -- the claimed index is past the last entry: append a fresh node
    have hNeq : t.push_idx = N := Nat.le_antisymm hpushle hge
    set t1 : Node := ⟨t.nid, t.pop_idx, t.push_idx + 1, t.entries⟩ with ht1
    set nn : Node := mkNode N q.allocs v with hnn
    have hset1 : q.segs.set q.tailIdx t1 = A ++ [t1] := hAset t1
    have hcapt : cap N t = N := by simp [cap, hNeq]
    have hcapt1 : cap N t1 = N := by
      rw [ht1]
      simp [cap]
      omega
    have hlenset : (q.segs.set q.tailIdx t1).length = q.segs.length := by simp
    refine ⟨{ segs := q.segs.set q.tailIdx t1 ++ [nn],
              tailIdx := q.tailIdx + 1, allocs := q.allocs + 1 }, ?_, ?_, ?_⟩
    · simp only [pushLoop, ht]
      rw [if_pos (by omega : N ≤ t.push_idx)]
      have hc1 : ((q.segs.set q.tailIdx t1)[q.tailIdx]?).map Node.nid = some t.nid := by
        rw [List.getElem?_set_self hklt]
        rfl
      rw [if_neg (by simp [hc1])]
      have hc2 : (q.segs.set q.tailIdx t1)[q.tailIdx + 1]? = none :=
        List.getElem?_eq_none (by omega)
      simp only [hc2]
    · have hlen' : (q.segs.set q.tailIdx t1 ++ [nn]).length = q.segs.length + 1 := by
        simp
      refine ⟨by simp, by simp; omega, ?_, ?_, ?_, ?_⟩
      · intro n hn
        rcases List.mem_append.mp hn with h | h
        · rcases List.mem_or_eq_of_mem_set h with h' | h'
          · exact hseg n h'
          · subst h'
            refine ⟨hNlen, ?_, fun i hiN => ?_⟩
            · rw [hcapt1]
              exact hcapt ▸ hsw.pop_le
            · rw [hcapt1]
              have hc := hsw.2.2 i hiN
              rw [hcapt] at hc
              exact hc
        · have h' : n = nn := by simpa using h
          subst h'
          rw [hnn]
          exact SegWF_mkNode N q.allocs v hN hv
      · intro i hi
        rw [hlen'] at hi
        show (((q.segs.set q.tailIdx t1 ++ [nn])[i]?).map Node.push_idx) = some (N + 1)
        rw [List.getElem?_append_left (by omega)]
        rcases eq_or_ne i q.tailIdx with h | h
        · subst h
          rw [List.getElem?_set_self hklt, ht1]
          simp [hNeq]
        · rw [List.getElem?_set_ne (Ne.symm h)]
          exact hfull i (by omega)
      · intro i hi hi0
        rw [hlen'] at hi
        show (((q.segs.set q.tailIdx t1 ++ [nn])[i]?).map Node.pop_idx) = some 0 ∧
          (((q.segs.set q.tailIdx t1 ++ [nn])[i]?).map Node.push_idx) ≠ some 0
        rcases Nat.lt_or_ge i q.segs.length with h | h
        · rw [List.getElem?_append_left (by omega)]
          rcases eq_or_ne i q.tailIdx with he | he
          · subst he
            rw [List.getElem?_set_self hklt]
            have hr := hrestc q.tailIdx (by omega) hi0
            rw [ht] at hr
            have hpop0 : t.pop_idx = 0 := by simpa using hr.1
            rw [ht1]
            constructor
            · simpa using hpop0
            · simp
          · rw [List.getElem?_set_ne (Ne.symm he)]
            exact hrestc i (by omega) hi0
        · have hieq : i = q.segs.length := by omega
          subst hieq
          rw [List.getElem?_append_right (by omega), hlenset, Nat.sub_self, hnn]
          simp [mkNode]
      · show ((((q.segs.set q.tailIdx t1 ++ [nn])[(q.segs.set q.tailIdx t1 ++
          [nn]).length - 1]?).map Node.push_idx)).getD 0 ≤ N
        rw [hlen']
        have hll : q.segs.length + 1 - 1 = q.segs.length := by omega
        rw [hll, List.getElem?_append_right (by omega), hlenset, Nat.sub_self, hnn]
        simp [mkNode]
        omega
    · have hsegs' : (q.segs.set q.tailIdx t1 ++ [nn]) = (A ++ [t1]) ++ [nn] := by
        rw [hset1]
      rw [toList_decomp N _ (A ++ [t1]) nn (by simpa using hsegs'),
        toList_decomp N q A t hA]
      rw [List.map_append, List.flatten_append]
      have hvt1 : Node.vals N t1 = Node.vals N t :=
        vals_congr N t1 t rfl (by rw [hcapt1, hcapt]) fun i _ _ => rfl
      simp only [List.map_cons, List.map_nil, List.flatten_cons, List.flatten_nil,
        List.append_nil, hvt1, hnn, vals_mkNode N q.allocs v hN, List.append_assoc]

/-! ## The sequential behaviour of `try_pop` -/

lemma pop_head_step {N : Nat} (fuel : Nat) (q : QState) (hd : Node) (rest : List Node)
    (hq : q.segs = hd :: rest) (hwf : WF N q) (hN : 0 < N)
    (hlt : hd.pop_idx < cap N hd) :
    ∃ q', popLoop N (fuel + 1) q = some (some (slotVal hd hd.pop_idx), q') ∧
      WF N q' ∧ toList N q = slotVal hd hd.pop_idx :: toList N q' ∧
      q'.allocs = q.allocs := by
  obtain ⟨hpos, htail, hseg, hfull, hrestc, hlast⟩ := hwf
  rw [hq] at hpos htail hseg hfull hrestc hlast
  have hsw : SegWF N hd := hseg hd (List.mem_cons_self hd rest)
  have hNlen : hd.entries.length = N := hsw.len
  have hcapN : cap N hd ≤ N := cap_le hd
  have hpoplt : hd.pop_idx < hd.push_idx :=
    lt_of_lt_of_le hlt (Nat.min_le_left _ _)
  obtain ⟨p, hp0, hget⟩ := (cellIsVal_iff _).mp (hsw.val (le_refl hd.pop_idx) hlt)
  have hsv : slotVal hd hd.pop_idx = p := by rw [slotVal_of_get hd _ _ hget]
  set h2 : Node :=
    ⟨hd.nid, hd.pop_idx + 1, hd.push_idx, hd.entries.set hd.pop_idx MVal.tombV⟩
    with hh2
  have hcap2 : cap N h2 = cap N hd := rfl
  refine ⟨{ q with segs := h2 :: rest }, ?_, ?_, ?_, rfl⟩
  · simp only [popLoop, hq]
    rw [if_neg (by rintro ⟨h1, -⟩; omega)]
    rw [if_neg (by omega : ¬ N ≤ hd.pop_idx)]
    have hget' : (⟨hd.nid, hd.pop_idx + 1, hd.push_idx, hd.entries⟩ : Node).entries[hd.pop_idx]?
        = some (MVal.mk p false) := hget
    simp only [hget']
    rw [if_pos (by simp [MVal.emptyV, hp0])]
    rw [hsv]
  · refine ⟨by simpa [hq] using hpos, by simpa [hq] using htail, ?_, ?_, ?_, ?_⟩
    · intro n hn
      rcases List.mem_cons.mp hn with h | h
      · subst h
        refine ⟨?_, ?_, fun i hiN => ?_⟩
        · show (hd.entries.set hd.pop_idx MVal.tombV).length = N
          simp [hNlen]
        · show hd.pop_idx + 1 ≤ cap N h2
          rw [hcap2]
          omega
        · rw [hcap2]
          refine ⟨fun h1 => ?_, fun h1 h2' => ?_, fun h1 => ?_⟩
          · have h1' : i < hd.pop_idx + 1 := h1
            show (hd.entries.set hd.pop_idx MVal.tombV)[i]? = some MVal.tombV
            rcases Nat.lt_or_ge i hd.pop_idx with hi | hi
            · rw [List.getElem?_set_ne (by omega)]
              exact hsw.tomb hi
            · have hieq : i = hd.pop_idx := by omega
              subst hieq
              exact List.getElem?_set_self (by omega)
          · have h1' : hd.pop_idx + 1 ≤ i := h1
            show cellIsVal (hd.entries.set hd.pop_idx MVal.tombV)[i]? = true
            rw [List.getElem?_set_ne (by omega)]
            exact hsw.val (by omega) h2'
          · show (hd.entries.set hd.pop_idx MVal.tombV)[i]? = some MVal.emptyV
            rw [List.getElem?_set_ne (by omega)]
            exact hsw.emptyPast h1 hiN
      · exact hseg n (List.mem_cons_of_mem hd h)
    · intro i hi
      simp only [List.length_cons] at hi
      match i with
      | 0 =>
        have h0 := hfull 0 (by simpa using hi)
        simp only [List.getElem?_cons_zero, Option.map_some'] at h0 ⊢
        simpa using h0
      | j + 1 =>
        have hj := hfull (j + 1) (by simpa using hi)
        simpa using hj
    · intro i hi hi0
      simp only [List.length_cons] at hi
      match i, hi0 with
      | j + 1, _ =>
        have hj := hrestc (j + 1) (by simpa using hi) (by omega)
        simpa using hj
    · show (((h2 :: rest)[(h2 :: rest).length - 1]?).map Node.push_idx).getD 0 ≤ N
      cases rest with
      | nil => simpa using hlast
      | cons r0 rest' => simpa using hlast
  · rw [toList_cons N q hd rest hq, toList_cons N _ h2 rest rfl,
      vals_cons N hd hlt]
    have hvt : Node.vals N h2 =
        (List.range' (hd.pop_idx + 1) (cap N hd - (hd.pop_idx + 1))).map (slotVal hd) := by
      unfold Node.vals
      rw [hcap2]
      show (List.range' (hd.pop_idx + 1) (cap N hd - (hd.pop_idx + 1))).map (slotVal h2) = _
      refine List.map_congr_left fun i hi => ?_
      have hm := List.mem_range'_1.mp hi
      refine slotVal_congr hd h2 i ?_
      show (hd.entries.set hd.pop_idx MVal.tombV)[i]? = hd.entries[i]?
      exact List.getElem?_set_ne (by omega)
    rw [hvt]
    simp

lemma popLoop_spec {N : Nat} (fuel : Nat) (q : QState) (hwf : WF N q) (hN : 0 < N) :
    (toList N q = [] → popLoop N (fuel + 2) q = some (none, q)) ∧
    (∀ v vs, toList N q = v :: vs →
      ∃ q', popLoop N (fuel + 2) q = some (some v, q') ∧
        WF N q' ∧ toList N q' = vs ∧ q'.allocs = q.allocs) := by
  obtain ⟨hd, rest, hq⟩ : ∃ hd rest, q.segs = hd :: rest := by
    rcases hqs : q.segs with _ | ⟨hd, rest⟩
    · exact absurd hwf.1 (by rw [hqs]; simp)
    · exact ⟨hd, rest, rfl⟩
  have hwf' := hwf
  obtain ⟨hpos, htail, hseg, hfull, hrestc, hlast⟩ := hwf
  have hsw : SegWF N hd := hseg hd (hq ▸ List.mem_cons_self hd rest)
  rcases Nat.lt_or_ge hd.pop_idx (cap N hd) with hlt | hdrained
  · -- the head node still has a value at the pop cursor
    obtain ⟨q', heq, hwfq', htl, hal⟩ :=
      pop_head_step (fuel + 1) q hd rest hq hwf' hN hlt
    constructor
    · intro h0
      rw [h0] at htl
      exact absurd htl (by simp)
    · intro v vs hvv
      rw [hvv] at htl
      injection htl with h1 h2
      refine ⟨q', ?_, hwfq', h2.symm, hal⟩
      rw [h1]
      exact heq
  · -- the head node is drained at the pop cursor
    have hpopcap : hd.pop_idx = cap N hd := Nat.le_antisymm hsw.pop_le hdrained
    have hvnil : Node.vals N hd = [] := (vals_eq_nil_iff N hd).mpr hdrained
    have htList : toList N q = (rest.map (Node.vals N)).flatten := by
      rw [toList_cons N q hd rest hq, hvnil]
      rfl
    cases rest with
    | nil =>
      -- single node: the queue is empty and the emptiness check fires
      have hlast' : hd.push_idx ≤ N := by
        rw [hq] at hlast
        simpa using hlast
      have hcap : cap N hd = hd.push_idx := Nat.min_eq_left hlast'
      constructor
      · intro h0
        simp only [popLoop, hq]
        rw [if_pos ⟨by omega, by simp⟩]
      · intro v vs hvv
        rw [htList] at hvv
        simp at hvv
    | cons r0 rest' =>
      -- drained head with a successor: unlink it and pop from the next node
      have hfull0 : hd.push_idx = N + 1 := by
        have h0 := hfull 0 (by rw [hq]; simp)
        rw [hq] at h0
        simpa using h0
      have hcapN : cap N hd = N := by
        rw [cap, hfull0]
        omega
      have hpopN : hd.pop_idx = N := by omega
      have hr0 := hrestc 1 (by rw [hq]; simp) (by omega)
      rw [hq] at hr0
      have hr0pop : r0.pop_idx = 0 := by simpa using hr0.1
      have hr0push : r0.push_idx ≠ 0 := by simpa using hr0.2
      set q3 : QState :=
        { q with segs := r0 :: rest', tailIdx := q.tailIdx - 1 } with hq3
      have hlen : q.segs.length = rest'.length + 2 := by rw [hq]; simp
      have hwf3 : WF N q3 := by
        refine ⟨by simp, by simp; omega, ?_, ?_, ?_, ?_⟩
        · intro n hn
          exact hseg n (by rw [hq]; exact List.mem_cons_of_mem hd hn)
        · intro i hi
          simp only [List.length_cons] at hi
          have hj := hfull (i + 1) (by rw [hq]; simp; omega)
          rw [hq] at hj
          simpa using hj
        · intro i hi hi0
          simp only [List.length_cons] at hi
          have hj := hrestc (i + 1) (by rw [hq]; simp; omega) (by omega)
          rw [hq] at hj
          simpa using hj
        · have hl := hlast
          rw [hq] at hl
          show (((r0 :: rest')[(r0 :: rest').length - 1]?).map Node.push_idx).getD 0 ≤ N
          simpa using hl
      have htl3 : toList N q3 = toList N q := by
        rw [htList]
        rfl
      have hlt3 : r0.pop_idx < cap N r0 := by
        rw [hr0pop, cap]
        omega
      obtain ⟨q', heq, hwfq', htl, hal⟩ :=
        pop_head_step fuel q3 r0 rest' rfl hwf3 hN hlt3
      have hstep : popLoop N (fuel + 2) q = popLoop N (fuel + 1) q3 := by
        simp only [popLoop, hq]
        rw [if_neg (by rintro ⟨h1, -⟩; omega)]
        rw [if_pos (by omega : N ≤ hd.pop_idx)]
      constructor
      · intro h0
        rw [h0] at htl3
        rw [htl3] at htl
        exact absurd htl (by simp)
      · intro v vs hvv
        rw [hvv] at htl3
        rw [htl3] at htl
        injection htl with h1 h2
        refine ⟨q', ?_, hwfq', h2.symm, by rw [hal]⟩
        rw [hstep, h1]
        exact heq

/-! ## Sequences of operations -/

lemma pushAll_spec {N : Nat} (vs : List Nat) (q : QState) (hwf : WF N q) (hN : 0 < N)
    (hvs : ∀ v ∈ vs, v ≠ 0) :
    ∃ q', pushAll N 2 vs q = some q' ∧ WF N q' ∧
      toList N q' = toList N q ++ vs := by
  induction vs generalizing q with
  | nil => exact ⟨q, rfl, hwf, by simp⟩
  | cons v vs ih =>
    obtain ⟨q1, he1, hwf1, htl1⟩ := pushLoop_spec v 1 q hwf hN (hvs v (by simp))
    have he1' : pushLoop N v 2 q = some q1 := he1
    obtain ⟨q', he', hwf', htl'⟩ := ih q1 hwf1 (fun w hw => hvs w (by simp [hw]))
    refine ⟨q', ?_, hwf', ?_⟩
    · simp only [pushAll, he1']
      exact he'
    · rw [htl', htl1, List.append_assoc]
      rfl

lemma popAllStrict_spec {N : Nat} (l : List Nat) (q : QState) (hwf : WF N q)
    (hN : 0 < N) (htl : toList N q = l) :
    ∃ q', popAllStrict N 2 l.length q = some (l, q') ∧ WF N q' ∧ toList N q' = [] := by
  induction l generalizing q with
  | nil => exact ⟨q, rfl, hwf, htl⟩
  | cons v vs ih =>
    obtain ⟨q1, he1, hwf1, htl1, -⟩ := (popLoop_spec 0 q hwf hN).2 v vs htl
    have he1' : popLoop N 2 q = some (some v, q1) := he1
    obtain ⟨q', he', hwf', htl'⟩ := ih q1 hwf1 htl1
    refine ⟨q', ?_, hwf', htl'⟩
    show popAllStrict N 2 (vs.length + 1) q = some (v :: vs, q')
    simp only [popAllStrict, he1', he', Option.map_some']

lemma runOps_spec {N : Nat} (ops : List Op) (q : QState) (pushed popped : List Nat)
    (hwf : WF N q) (hN : 0 < N)
    (hq : ∀ x ∈ toList N q, x ≠ 0 ∧ x ∈ pushed)
    (hpp : ∀ x ∈ popped, x ≠ 0 ∧ x ∈ pushed) :
    ∀ q' P R, runOps N 2 ops q pushed popped = some (q', P, R) →
      ∀ x ∈ R, x ≠ 0 ∧ x ∈ P := by
  induction ops generalizing q pushed popped with
  | nil =>
    intro q' P R h
    simp only [runOps, Option.some.injEq, Prod.mk.injEq] at h
    obtain ⟨-, hP, hR⟩ := h
    subst hP
    subst hR
    exact hpp
  | cons op ops ih =>
    cases op with
    | push v =>
      intro q' P R h
      simp only [runOps] at h
      by_cases hv : v = 0
      · rw [if_pos hv] at h
        exact ih q pushed popped hwf hq hpp q' P R h
      · rw [if_neg hv] at h
        obtain ⟨q1, he1, hwf1, htl1⟩ := pushLoop_spec v 1 q hwf hN hv
        have he1' : pushLoop N v 2 q = some q1 := he1
        rw [he1'] at h
        refine ih q1 (pushed ++ [v]) popped hwf1 ?_ ?_ q' P R h
        · intro x hx
          rw [htl1] at hx
          rcases List.mem_append.mp hx with hx | hx
          · obtain ⟨hx0, hxp⟩ := hq x hx
            exact ⟨hx0, List.mem_append_left _ hxp⟩
          · have hxv : x = v := by simpa using hx
            subst hxv
            exact ⟨hv, by simp⟩
        · intro x hx
          obtain ⟨hx0, hxp⟩ := hpp x hx
          exact ⟨hx0, List.mem_append_left _ hxp⟩
    | pop =>
      intro q' P R h
      simp only [runOps] at h
      rcases hte : toList N q with _ | ⟨v, vs⟩
      · have h2 : popLoop N 2 q = some (none, q) := (popLoop_spec 0 q hwf hN).1 hte
        rw [h2] at h
        exact ih q pushed popped hwf hq hpp q' P R h
      · obtain ⟨q1, he1, hwf1, htl1, -⟩ := (popLoop_spec 0 q hwf hN).2 v vs hte
        have he1' : popLoop N 2 q = some (some v, q1) := he1
        rw [he1'] at h
        have hv : v ≠ 0 ∧ v ∈ pushed := hq v (by rw [hte]; simp)
        refine ih q1 pushed (popped ++ [v]) hwf1 ?_ ?_ q' P R h
        · intro x hx
          rw [htl1] at hx
          exact hq x (by rw [hte]; simp [hx])
        · intro x hx
          rcases List.mem_append.mp hx with hx | hx
          · exact hpp x hx
          · have hxv : x = v := by simpa using hx
            subst hxv
            exact hv

/-! ## The out-of-memory behaviour of `push` -/

lemma set_same {α : Type} :
    ∀ (l : List α) (i : Nat) (a : α), l[i]? = some a → l.set i a = l
  | [], i, a, h => by simp at h
  | x :: l, 0, a, h => by
    have hx : x = a := by simpa using h
    subst hx
    rfl
  | x :: l, i + 1, a, h => by
    have h' : l[i]? = some a := by simpa using h
    show x :: l.set i a = x :: l
    rw [set_same l i a h']

lemma pushLoopOOM_spec {N : Nat} (v fuel : Nat) (q : QState) (hwf : WF N q)
    (hN : 0 < N) {e : QState}
    (h : pushLoopOOM N v (fuel + 1) q = some (Except.error e)) :
    e.segs.map Node.nid = q.segs.map Node.nid ∧
    e.allocs = q.allocs ∧ e.tailIdx = q.tailIdx ∧
    toList N e = toList N q ∧
    e.segs.map Node.pop_idx = q.segs.map Node.pop_idx ∧
    e.segs.map Node.entries = q.segs.map Node.entries := by
  obtain ⟨hpos, htail, hseg, hfull, hrestc, hlast⟩ := hwf
  have hklt : q.tailIdx < q.segs.length := by omega
  obtain ⟨t, ht⟩ : ∃ u, q.segs[q.tailIdx]? = some u := by
    rw [List.getElem?_eq_getElem hklt]
    exact ⟨_, rfl⟩
  have htmem : t ∈ q.segs := List.getElem?_mem ht
  have hsw : SegWF N t := hseg t htmem
  have hNlen : t.entries.length = N := hsw.len
  have hlen1 : q.segs.length - 1 = q.tailIdx := by omega
  have hpushle : t.push_idx ≤ N := by
    rw [hlen1, ht] at hlast
    simpa using hlast
  obtain ⟨A, hA, hAset⟩ := eq_append_last q.segs q.tailIdx t htail ht
  rcases Nat.lt_or_ge t.push_idx N with hlt | hge
  · -- in-range index: the publish succeeds, no allocation is attempted
    have hcap : cap N t = t.push_idx := Nat.min_eq_left (Nat.le_of_lt hlt)
    have hemp : t.entries[t.push_idx]? = some MVal.emptyV := hsw.emptyPast hcap.le hlt
    have heval : pushLoopOOM N v (fuel + 1) q = some (Except.ok { q with segs := (q.segs.set q.tailIdx (Node.mk t.nid t.pop_idx (t.push_idx + 1) t.entries)).set q.tailIdx (Node.mk t.nid t.pop_idx (t.push_idx + 1) (t.entries.set t.push_idx (MVal.mk v false))) }) := by
      simp only [pushLoopOOM, ht]
      rw [if_neg (by omega : ¬ N ≤ t.push_idx)]
      simp only [hemp, if_true]
    rw [heval] at h
    simp at h
  · -- full node: the allocation is attempted and throws
    have hNeq : t.push_idx = N := Nat.le_antisymm hpushle hge
    have heval : pushLoopOOM N v (fuel + 1) q = some (Except.error { q with segs := q.segs.set q.tailIdx (Node.mk t.nid t.pop_idx (t.push_idx + 1) t.entries) }) := by
      simp only [pushLoopOOM, ht]
      rw [if_pos (by omega : N ≤ t.push_idx)]
      have hc1 : ((q.segs.set q.tailIdx
          ⟨t.nid, t.pop_idx, t.push_idx + 1, t.entries⟩)[q.tailIdx]?).map Node.nid
          = some t.nid := by
        rw [List.getElem?_set_self hklt]
        rfl
      rw [if_neg (by simp [hc1])]
      have hc2 : (q.segs.set q.tailIdx
          ⟨t.nid, t.pop_idx, t.push_idx + 1, t.entries⟩)[q.tailIdx + 1]? = none :=
        List.getElem?_eq_none (by simp; omega)
      simp only [hc2]
    rw [heval] at h
    have he : e = { q with segs := q.segs.set q.tailIdx (Node.mk t.nid t.pop_idx (t.push_idx + 1) t.entries) } := by
      have h' := h
      simp only [Option.some.injEq, Except.error.injEq] at h'
      exact h'.symm
    subst he
    have hcapt : cap N t = N := by simp [cap, hNeq]
    have hcapt1 : cap N (⟨t.nid, t.pop_idx, t.push_idx + 1, t.entries⟩ : Node) = N := by
      simp [cap]
      omega
    refine ⟨?_, rfl, rfl, ?_, ?_, ?_⟩
    · show (q.segs.set q.tailIdx _).map Node.nid = _
      rw [List.map_set]
      exact set_same _ _ _ (by rw [List.getElem?_map, ht]; rfl)
    · rw [toList_decomp N _ A _ (by simpa using hAset _), toList_decomp N q A t hA]
      congr 1
      exact vals_congr N _ t rfl (by rw [hcapt1, hcapt]) fun i _ _ => rfl
    · show (q.segs.set q.tailIdx _).map Node.pop_idx = _
      rw [List.map_set]
      exact set_same _ _ _ (by rw [List.getElem?_map, ht]; rfl)
    · show (q.segs.set q.tailIdx _).map Node.entries = _
      rw [List.map_set]
      exact set_same _ _ _ (by rw [List.getElem?_map, ht]; rfl)

/-! ## Claim theorems -/

/-- C1: in a sequential execution, for every capacity `entries_per_node > 0`
and every sequence of non-null values, pushing them all and then performing
as many `try_pop` calls succeeds on every pop and returns exactly the pushed
values in push order (FIFO). -/
theorem C1_sequential_fifo (N : Nat) (vs : List Nat) (hN : 0 < N)
    (hvs : ∀ v ∈ vs, v ≠ 0) :
    ∃ q1 q2, pushAll N 2 vs (initQ N) = some q1 ∧
      popAllStrict N 2 vs.length q1 = some (vs, q2) := by
  obtain ⟨q1, he1, hwf1, htl1⟩ := pushAll_spec vs (initQ N) (WF_initQ N hN) hN hvs
  rw [toList_initQ] at htl1
  simp only [List.nil_append] at htl1
  obtain ⟨q2, he2, -, -⟩ := popAllStrict_spec vs q1 hwf1 hN htl1
  exact ⟨q1, q2, he1, he2⟩

/-- Witness for C1 at a concrete input: capacity 2, values 5, 7, 9. -/
theorem C1_sequential_fifo_witness :
    ∃ q1 q2, pushAll 2 2 [5, 7, 9] (initQ 2) = some q1 ∧
      popAllStrict 2 2 3 q1 = some ([5, 7, 9], q2) :=
  C1_sequential_fifo 2 [5, 7, 9] (by decide) (by decide)

/-- C2: for every queue state, pushing the null value fails with
`std::invalid_argument`, before any atomic step, and the returned error
carries the queue state completely unchanged (so nothing was enqueued). -/
theorem C2_push_null (N fuel : Nat) (q : QState) :
    push N fuel q 0 = some (Except.error (QErr.invalidArgument, q)) := rfl

/-- C3: when the head node's pop cursor has reached or passed its push
cursor and the head node has no next node, `try_pop` returns `false` and
the state is returned completely unchanged (no cursor is advanced). -/
theorem C3_empty_pop (N fuel : Nat) (q : QState) (n : Node)
    (hq : q.segs = [n]) (hle : n.push_idx ≤ n.pop_idx) :
    try_pop N (fuel + 1) q = some (none, q) := by
  show popLoop N (fuel + 1) q = some (none, q)
  simp only [popLoop, hq]
  rw [if_pos ⟨hle, by simp⟩]

/-- Witness for C3 at a concrete input: the fresh queue with capacity 3. -/
theorem C3_empty_pop_witness : try_pop 3 1 (initQ 3) = some (none, initQ 3) :=
  C3_empty_pop 3 0 (initQ 3)
    ⟨0, 0, 0, MVal.mk 0 false :: List.replicate 2 MVal.emptyV⟩
    (by decide) (by decide)

/-- C4: with `entries_per_node = 4`, five pushes on a fresh queue allocate
exactly one new node (the allocation counter goes from 1 to 2 and the chain
grows from one node to two), and the fifth value sits in the new node's
first slot, placed there at node creation with the push cursor starting at
1 (`node::node` pre-fills entry 0 and sets `push_idx = 1`). -/
theorem C4_segment_boundary :
    pushAll 4 2 [1, 2, 3, 4, 5] (initQ 4) =
      some { segs := [⟨0, 0, 5, [⟨1, false⟩, ⟨2, false⟩, ⟨3, false⟩, ⟨4, false⟩]⟩,
                      ⟨1, 0, 1, [⟨5, false⟩, ⟨0, false⟩, ⟨0, false⟩, ⟨0, false⟩]⟩],
             tailIdx := 1, allocs := 2 } ∧
    (initQ 4).allocs = 1 ∧ (initQ 4).segs.length = 1 ∧
    (mkNode 4 1 5).push_idx = 1 ∧ (mkNode 4 1 5).entries[0]? = some ⟨5, false⟩ := by
  decide

/-- C8 counterexample: the claim says a failed node allocation leaves the
queue state unchanged.  It does not: on the concrete full one-entry queue
reached by pushing value 1 into a fresh capacity-1 queue, a push of value 2
whose `new node` throws leaves the tail node's push cursor advanced from 1
to 2 (the `fetch_add` at line 190 happened before the `new` at line 200),
so the state at the throw differs from the state before the call. -/
theorem C8_counterexample :
    pushLoop 1 1 2 (initQ 1) = some ⟨[⟨0, 0, 1, [⟨1, false⟩]⟩], 0, 1⟩ ∧
    pushLoopOOM 1 2 2 ⟨[⟨0, 0, 1, [⟨1, false⟩]⟩], 0, 1⟩ =
      some (Except.error ⟨[⟨0, 0, 2, [⟨1, false⟩]⟩], 0, 1⟩) ∧
    (⟨[⟨0, 0, 2, [⟨1, false⟩]⟩], 0, 1⟩ : QState) ≠ ⟨[⟨0, 0, 1, [⟨1, false⟩]⟩], 0, 1⟩ :=
  ⟨rfl, rfl, by decide⟩

/-- C8 (amended): if the allocation of a new node during `push` fails, the
error propagates to the caller and the failed allocation is never linked
into the queue: the state at the throw has exactly the same chain of nodes
(same identities, same entries, same pop cursors), the same allocation
count, the same tail position and the same abstract FIFO contents — the
only mutation is the already-performed `fetch_add` on the full tail node's
push cursor, which does not affect the queue's contents. -/
theorem C8_alloc_failure (N v fuel : Nat) (q e : QState) (hwf : WF N q)
    (hN : 0 < N) (h : pushLoopOOM N v (fuel + 1) q = some (Except.error e)) :
    e.segs.map Node.nid = q.segs.map Node.nid ∧
    e.allocs = q.allocs ∧ e.tailIdx = q.tailIdx ∧
    toList N e = toList N q ∧
    e.segs.map Node.pop_idx = q.segs.map Node.pop_idx ∧
    e.segs.map Node.entries = q.segs.map Node.entries :=
  pushLoopOOM_spec v fuel q hwf hN h

/-- Witness for C8 at a concrete input: the full capacity-1 queue. -/
theorem C8_alloc_failure_witness :
    (⟨[⟨0, 0, 2, [⟨1, false⟩]⟩], 0, 1⟩ : QState).segs.map Node.nid =
      (⟨[⟨0, 0, 1, [⟨1, false⟩]⟩], 0, 1⟩ : QState).segs.map Node.nid ∧
    (⟨[⟨0, 0, 2, [⟨1, false⟩]⟩], 0, 1⟩ : QState).allocs =
      (⟨[⟨0, 0, 1, [⟨1, false⟩]⟩], 0, 1⟩ : QState).allocs ∧
    (⟨[⟨0, 0, 2, [⟨1, false⟩]⟩], 0, 1⟩ : QState).tailIdx =
      (⟨[⟨0, 0, 1, [⟨1, false⟩]⟩], 0, 1⟩ : QState).tailIdx ∧
    toList 1 ⟨[⟨0, 0, 2, [⟨1, false⟩]⟩], 0, 1⟩ =
      toList 1 ⟨[⟨0, 0, 1, [⟨1, false⟩]⟩], 0, 1⟩ ∧
    (⟨[⟨0, 0, 2, [⟨1, false⟩]⟩], 0, 1⟩ : QState).segs.map Node.pop_idx =
      (⟨[⟨0, 0, 1, [⟨1, false⟩]⟩], 0, 1⟩ : QState).segs.map Node.pop_idx ∧
    (⟨[⟨0, 0, 2, [⟨1, false⟩]⟩], 0, 1⟩ : QState).segs.map Node.entries =
      (⟨[⟨0, 0, 1, [⟨1, false⟩]⟩], 0, 1⟩ : QState).segs.map Node.entries :=
  C8_alloc_failure 1 2 1 ⟨[⟨0, 0, 1, [⟨1, false⟩]⟩], 0, 1⟩
    ⟨[⟨0, 0, 2, [⟨1, false⟩]⟩], 0, 1⟩ (by decide) (by decide) rfl

/-- C10: along any sequence of API calls on a fresh queue, every value a
successful `try_pop` returns is non-null and was the argument of an earlier
successful `push` (so a successful pop never yields null and never yields
the tombstone marker). -/
theorem C10_pop_returns_pushed (N : Nat) (ops : List Op) (q' : QState)
    (pushed popped : List Nat) (hN : 0 < N)
    (h : runOps N 2 ops (initQ N) [] [] = some (q', pushed, popped)) :
    ∀ x ∈ popped, x ≠ 0 ∧ x ∈ pushed :=
  runOps_spec ops (initQ N) [] [] (WF_initQ N hN) hN
    (fun x hx => absurd hx (by rw [toList_initQ]; simp))
    (fun x hx => absurd hx (by simp)) q' pushed popped h

/-- Witness for C10 at a concrete input: push 7 then pop on a capacity-1
queue; the popped value 7 is non-null and was pushed. -/
theorem C10_pop_returns_pushed_witness : (7 : Nat) ≠ 0 ∧ 7 ∈ [7] :=
  C10_pop_returns_pushed 1 [Op.push 7, Op.pop]
    ⟨[⟨0, 1, 1, [⟨0, true⟩]⟩], 0, 1⟩ [7] [7] (by decide) (by decide)
    7 (by decide)

/-! ## Monotonicity of cursors and next-links -/

lemma nid_inj : ∀ {l : List Node}, (l.map Node.nid).Nodup →
    ∀ n ∈ l, ∀ n' ∈ l, n.nid = n'.nid → n = n'
  | [], _, n, hn, _, _, _ => by simp at hn
  | x :: l, h, n, hn, n', hn', he => by
    rw [List.map_cons, List.nodup_cons] at h
    rcases List.mem_cons.mp hn with h1 | h1 <;> rcases List.mem_cons.mp hn' with h2 | h2
    · rw [h1, h2]
    · exact absurd (show x.nid ∈ l.map Node.nid by
        rw [← h1, he]; exact List.mem_map_of_mem Node.nid h2) h.1
    · exact absurd (show x.nid ∈ l.map Node.nid by
        rw [← h2, ← he]; exact List.mem_map_of_mem Node.nid h1) h.1
    · exact nid_inj h.2 n h1 n' h2 he

lemma Mono_refl_of_nodup {q : QState} (h : (idsOf q).Nodup) : Mono q q := by
  refine ⟨le_refl _, fun n' hn' => Or.inl (List.mem_map_of_mem Node.nid hn'),
    ?_, fun p hp _ => hp⟩
  intro n hn n' hn' he
  rw [nid_inj h n hn n' hn' he]
  exact ⟨le_refl _, le_refl _⟩

lemma Mono_trans {q q1 q2 : QState} (hg : GoodIds q) (hg1 : GoodIds q1)
    (h1 : Mono q q1) (h2 : Mono q1 q2) : Mono q q2 := by
  obtain ⟨ha1, hb1, hc1, hd1⟩ := h1
  obtain ⟨ha2, hb2, hc2, hd2⟩ := h2
  refine ⟨le_trans ha1 ha2, ?_, ?_, ?_⟩
  · intro n'' hn''
    rcases hb2 n'' hn'' with h | h
    · obtain ⟨n', hn', he⟩ := List.mem_map.mp h
      rcases hb1 n' hn' with h' | h'
      · exact Or.inl (he ▸ h')
      · exact Or.inr (he ▸ h')
    · exact Or.inr (le_trans ha1 h)
  · intro n hn n'' hn'' he
    rcases hb2 n'' hn'' with h | h
    · obtain ⟨n', hn', he'⟩ := List.mem_map.mp h
      have g1 := hc1 n hn n' hn' (by rw [he, he'])
      have g2 := hc2 n' hn' n'' hn'' he'
      exact ⟨le_trans g1.1 g2.1, le_trans g1.2 g2.2⟩
    · exfalso
      have hlt := hg.2 n hn
      omega
  · intro p hp hpid
    obtain ⟨a, b⟩ := p
    have hab := List.of_mem_zip hp
    have hidq : a ∈ idsOf q := hab.1
    obtain ⟨na, hna, hnaid⟩ := List.mem_map.mp hidq
    have halt : a < q.allocs := hnaid ▸ hg.2 na hna
    obtain ⟨n2, hn2, hn2id⟩ := List.mem_map.mp hpid
    have hn2id' : n2.nid = a := hn2id
    have ha1' : a ∈ idsOf q1 := by
      rcases hb2 n2 hn2 with h | h
      · rw [← hn2id']
        exact h
      · exfalso
        rw [hn2id'] at h
        omega
    exact hd2 (a, b) (hd1 (a, b) hp ha1') hpid

lemma mono_set_step {q : QState} {k : Nat} {t : Node} (t' : Node) (hg : GoodIds q)
    (ht : q.segs[k]? = some t) (hnid : t'.nid = t.nid)
    (hpop : t.pop_idx ≤ t'.pop_idx) (hpush : t.push_idx ≤ t'.push_idx)
    (tl : Nat) :
    Mono q ⟨q.segs.set k t', tl, q.allocs⟩ ∧
    GoodIds ⟨q.segs.set k t', tl, q.allocs⟩ := by
  have htmem : t ∈ q.segs := List.getElem?_mem ht
  have hids : idsOf ⟨q.segs.set k t', tl, q.allocs⟩ = idsOf q := by
    show (q.segs.set k t').map Node.nid = q.segs.map Node.nid
    rw [List.map_set]
    exact set_same _ _ _ (by rw [List.getElem?_map, ht]; simp [hnid])
  have hlp : linkPairs ⟨q.segs.set k t', tl, q.allocs⟩ = linkPairs q := by
    unfold linkPairs
    rw [hids]
  constructor
  · refine ⟨le_refl _, ?_, ?_, ?_⟩
    · intro n' hn'
      refine Or.inl ?_
      have hm : n'.nid ∈ idsOf ⟨q.segs.set k t', tl, q.allocs⟩ :=
        List.mem_map_of_mem Node.nid hn'
      rw [hids] at hm
      exact hm
    · intro n hn n' hn' he
      rcases List.mem_or_eq_of_mem_set hn' with h | h
      · rw [nid_inj hg.1 n hn n' h he]
        exact ⟨le_refl _, le_refl _⟩
      · subst h
        have hnt : n = t := nid_inj hg.1 n hn t htmem (by rw [he]; exact hnid)
        subst hnt
        exact ⟨hpop, hpush⟩
    · intro p hp hpid
      rw [hlp]
      exact hp
  · refine ⟨by rw [hids]; exact hg.1, ?_⟩
    intro n hn
    rcases List.mem_or_eq_of_mem_set hn with h | h
    · exact hg.2 n h
    · subst h
      show n.nid < q.allocs
      rw [hnid]
      exact hg.2 t htmem

lemma zip_tail_mem_append : ∀ (l : List Nat) (a : Nat) (p : Nat × Nat),
    p ∈ l.zip l.tail → p ∈ (l ++ [a]).zip (l ++ [a]).tail
  | [], a, p, hp => by simp at hp
  | [x], a, p, hp => by simp at hp
  | x :: y :: l, a, p, hp => by
    have hp' : p = (x, y) ∨ p ∈ (y :: l).zip (y :: l).tail := by
      simpa using hp
    simp only [List.cons_append, List.zip_cons_cons, List.tail_cons]
    rcases hp' with h | h
    · subst h
      exact List.mem_cons_self _ _
    · refine List.mem_cons_of_mem _ ?_
      have hrec := zip_tail_mem_append (y :: l) a p h
      simpa using hrec

lemma mono_append_step {q : QState} (hg : GoodIds q) (nn : Node)
    (hnid : nn.nid = q.allocs) (tl : Nat) :
    Mono q ⟨q.segs ++ [nn], tl, q.allocs + 1⟩ ∧
    GoodIds ⟨q.segs ++ [nn], tl, q.allocs + 1⟩ := by
  have hids : idsOf ⟨q.segs ++ [nn], tl, q.allocs + 1⟩ = idsOf q ++ [nn.nid] := by
    simp [idsOf]
  constructor
  · refine ⟨by show q.allocs ≤ q.allocs + 1; omega, ?_, ?_, ?_⟩
    · intro n' hn'
      rcases List.mem_append.mp hn' with h | h
      · exact Or.inl (List.mem_map_of_mem Node.nid h)
      · have h' : n' = nn := by simpa using h
        subst h'
        exact Or.inr (by omega)
    · intro n hn n' hn' he
      rcases List.mem_append.mp hn' with h | h
      · rw [nid_inj hg.1 n hn n' h he]
        exact ⟨le_refl _, le_refl _⟩
      · exfalso
        have h' : n' = nn := by simpa using h
        subst h'
        have hlt := hg.2 n hn
        omega
    · intro p hp hpid
      show p ∈ linkPairs ⟨q.segs ++ [nn], tl, q.allocs + 1⟩
      unfold linkPairs
      rw [hids]
      exact zip_tail_mem_append (idsOf q) nn.nid p hp
  · constructor
    · rw [hids, List.nodup_append]
      refine ⟨hg.1, by simp, ?_⟩
      intro x hx hx2
      have hxa : x = nn.nid := by simpa using hx2
      obtain ⟨nx, hnx, hnxid⟩ := List.mem_map.mp hx
      have := hg.2 nx hnx
      omega
    · intro n hn
      rcases List.mem_append.mp hn with h | h
      · have := hg.2 n h
        show n.nid < q.allocs + 1
        omega
      · have h' : n = nn := by simpa using h
        subst h'
        show n.nid < q.allocs + 1
        omega

lemma mono_drop_step {q : QState} {hd : Node} {rest : List Node} (hg : GoodIds q)
    (hq : q.segs = hd :: rest) (tl : Nat) :
    Mono q ⟨rest, tl, q.allocs⟩ ∧ GoodIds ⟨rest, tl, q.allocs⟩ := by
  have hidq : idsOf q = hd.nid :: rest.map Node.nid := by
    simp [idsOf, hq]
  have hnd := hg.1
  rw [hidq, List.nodup_cons] at hnd
  constructor
  · refine ⟨le_refl _, ?_, ?_, ?_⟩
    · intro n' hn'
      exact Or.inl (List.mem_map_of_mem Node.nid (by rw [hq]; exact List.mem_cons_of_mem hd hn'))
    · intro n hn n' hn' he
      have hn'q : n' ∈ q.segs := by
        rw [hq]
        exact List.mem_cons_of_mem hd hn'
      rw [nid_inj hg.1 n hn n' hn'q he]
      exact ⟨le_refl _, le_refl _⟩
    · intro p hp hpid
      have hp' : p ∈ (hd.nid :: rest.map Node.nid).zip (rest.map Node.nid) := by
        have hzz : p ∈ (idsOf q).zip (idsOf q).tail := hp
        rw [hidq] at hzz
        simpa using hzz
      show p ∈ (rest.map Node.nid).zip (rest.map Node.nid).tail
      cases hrm : rest.map Node.nid with
      | nil =>
        rw [hrm] at hp'
        simp at hp'
      | cons m0 ms =>
        rw [hrm] at hp'
        simp only [List.zip_cons_cons, List.tail_cons] at hp' ⊢
        rcases List.mem_cons.mp hp' with h | h
        · exfalso
          have hp1 : p.1 = hd.nid := by rw [h]
          have hpid' : p.1 ∈ rest.map Node.nid := hpid
          rw [hp1] at hpid'
          exact hnd.1 hpid'
        · exact h
  · exact ⟨hnd.2, fun n hn => hg.2 n (by rw [hq]; exact List.mem_cons_of_mem hd hn)⟩

lemma pushLoop_mono {N v : Nat} :
    ∀ (fuel : Nat) (q q' : QState), GoodIds q → pushLoop N v fuel q = some q' →
      Mono q q' ∧ GoodIds q'
  | 0, q, q', hg, h => by simp [pushLoop] at h
  | fuel + 1, q, q', hg, h => by
    rcases ht : q.segs[q.tailIdx]? with _ | t
    · rw [pushLoop, ht] at h
      simp at h
    · have hklt : q.tailIdx < q.segs.length := by
        rcases List.getElem?_eq_some_iff.mp ht with ⟨hlt, -⟩
        exact hlt
      simp only [pushLoop, ht] at h
      by_cases hfull : N ≤ t.push_idx
      · rw [if_pos hfull] at h
        rw [if_neg (by simp [List.getElem?_set_self hklt])] at h
        rcases hnx : (q.segs.set q.tailIdx
            { t with push_idx := t.push_idx + 1 })[q.tailIdx + 1]? with _ | nx
        · simp only [hnx, Option.some.injEq] at h
          subst h
          obtain ⟨hm1, hg1⟩ := mono_set_step
            ⟨t.nid, t.pop_idx, t.push_idx + 1, t.entries⟩ hg ht rfl
            (le_refl t.pop_idx) (Nat.le_succ t.push_idx) q.tailIdx
          obtain ⟨hm2, hg2⟩ := mono_append_step hg1 (mkNode N q.allocs v) rfl
            (q.tailIdx + 1)
          exact ⟨Mono_trans hg hg1 hm1 hm2, hg2⟩
        · simp only [hnx] at h
          obtain ⟨hm1, hg1⟩ := mono_set_step
            ⟨t.nid, t.pop_idx, t.push_idx + 1, t.entries⟩ hg ht rfl
            (le_refl t.pop_idx) (Nat.le_succ t.push_idx) (q.tailIdx + 1)
          obtain ⟨hm2, hg2⟩ := pushLoop_mono fuel _ q' hg1 h
          exact ⟨Mono_trans hg hg1 hm1 hm2, hg2⟩
      · rw [if_neg hfull] at h
        rcases hcell : t.entries[t.push_idx]? with _ | cell
        · simp [hcell] at h
        · simp only [hcell] at h
          by_cases hc : cell = MVal.emptyV
          · rw [if_pos hc] at h
            simp only [Option.some.injEq] at h
            subst h
            rw [List.set_set]
            exact mono_set_step
              ⟨t.nid, t.pop_idx, t.push_idx + 1,
                t.entries.set t.push_idx (MVal.mk v false)⟩ hg ht rfl
              (le_refl t.pop_idx) (Nat.le_succ t.push_idx) q.tailIdx
          · rw [if_neg hc] at h
            obtain ⟨hm1, hg1⟩ := mono_set_step
              ⟨t.nid, t.pop_idx, t.push_idx + 1, t.entries⟩ hg ht rfl
              (le_refl t.pop_idx) (Nat.le_succ t.push_idx) q.tailIdx
            obtain ⟨hm2, hg2⟩ := pushLoop_mono fuel _ q' hg1 h
            exact ⟨Mono_trans hg hg1 hm1 hm2, hg2⟩

lemma popLoop_mono {N : Nat} :
    ∀ (fuel : Nat) (q : QState) (r : Option Nat × QState), GoodIds q →
      popLoop N fuel q = some r → Mono q r.2 ∧ GoodIds r.2
  | 0, q, r, hg, h => by simp [popLoop] at h
  | fuel + 1, q, r, hg, h => by
    rcases hq : q.segs with _ | ⟨hd, rest⟩
    · rw [popLoop, hq] at h
      simp at h
    · simp only [popLoop, hq] at h
      by_cases hck : hd.push_idx ≤ hd.pop_idx ∧ rest = []
      · rw [if_pos hck] at h
        simp only [Option.some.injEq] at h
        subst h
        exact ⟨Mono_refl_of_nodup hg.1, hg⟩
      · rw [if_neg hck] at h
        have ht0 : q.segs[0]? = some hd := by rw [hq]; simp
        by_cases hidx : N ≤ hd.pop_idx
        · rw [if_pos hidx] at h
          cases rest with
          | nil =>
            simp only [Option.some.injEq] at h
            subst h
            have hset : q.segs.set 0 (Node.mk hd.nid (hd.pop_idx + 1) hd.push_idx hd.entries)
                = [Node.mk hd.nid (hd.pop_idx + 1) hd.push_idx hd.entries] := by
              rw [hq]
              rfl
            have hres := mono_set_step
              (Node.mk hd.nid (hd.pop_idx + 1) hd.push_idx hd.entries) hg ht0 rfl
              (Nat.le_succ hd.pop_idx) (le_refl hd.push_idx) q.tailIdx
            rw [hset] at hres
            exact hres
          | cons r0 rest' =>
            obtain ⟨hm1, hg1⟩ := mono_drop_step hg hq (q.tailIdx - 1)
            obtain ⟨hm2, hg2⟩ := popLoop_mono fuel _ r hg1 h
            exact ⟨Mono_trans hg hg1 hm1 hm2, hg2⟩
        · rw [if_neg hidx] at h
          rcases hcell : hd.entries[hd.pop_idx]? with _ | cell
          · simp [hcell] at h
          · simp only [hcell] at h
            have hset : q.segs.set 0
                (Node.mk hd.nid (hd.pop_idx + 1) hd.push_idx
                  (hd.entries.set hd.pop_idx MVal.tombV))
                = Node.mk hd.nid (hd.pop_idx + 1) hd.push_idx
                    (hd.entries.set hd.pop_idx MVal.tombV) :: rest := by
              rw [hq]
              rfl
            by_cases hc : cell = MVal.emptyV
            · rw [if_neg (by simp [hc])] at h
              obtain ⟨hm1, hg1⟩ := mono_set_step
                (Node.mk hd.nid (hd.pop_idx + 1) hd.push_idx
                  (hd.entries.set hd.pop_idx MVal.tombV)) hg ht0 rfl
                (Nat.le_succ hd.pop_idx) (le_refl hd.push_idx) q.tailIdx
              rw [hset] at hm1 hg1
              obtain ⟨hm2, hg2⟩ := popLoop_mono fuel _ r hg1 h
              exact ⟨Mono_trans hg hg1 hm1 hm2, hg2⟩
            · rw [if_pos hc] at h
              simp only [Option.some.injEq] at h
              subst h
              have hres := mono_set_step
                (Node.mk hd.nid (hd.pop_idx + 1) hd.push_idx
                  (hd.entries.set hd.pop_idx MVal.tombV)) hg ht0 rfl
                (Nat.le_succ hd.pop_idx) (le_refl hd.push_idx) q.tailIdx
              rw [hset] at hres
              exact hres

lemma runOps_mono {N fuel : Nat} :
    ∀ (ops : List Op) (q : QState) (pushed popped : List Nat)
      (out : QState × List Nat × List Nat), GoodIds q →
      runOps N fuel ops q pushed popped = some out →
      Mono q out.1 ∧ GoodIds out.1
  | [], q, pushed, popped, out, hg, h => by
    simp only [runOps, Option.some.injEq] at h
    subst h
    exact ⟨Mono_refl_of_nodup hg.1, hg⟩
  | Op.push v :: ops, q, pushed, popped, out, hg, h => by
    simp only [runOps] at h
    by_cases hv : v = 0
    · rw [if_pos hv] at h
      exact runOps_mono ops q pushed popped out hg h
    · rw [if_neg hv] at h
      rcases hp : pushLoop N v fuel q with _ | q1
      · rw [hp] at h
        simp at h
      · rw [hp] at h
        obtain ⟨hm1, hg1⟩ := pushLoop_mono fuel q q1 hg hp
        obtain ⟨hm2, hg2⟩ := runOps_mono ops q1 (pushed ++ [v]) popped out hg1 h
        exact ⟨Mono_trans hg hg1 hm1 hm2, hg2⟩
  | Op.pop :: ops, q, pushed, popped, out, hg, h => by
    simp only [runOps] at h
    rcases hp : popLoop N fuel q with _ | ⟨ov, q1⟩
    · rw [hp] at h
      simp at h
    · rw [hp] at h
      obtain ⟨hm1, hg1⟩ := popLoop_mono fuel q (ov, q1) hg hp
      cases ov with
      | none =>
        obtain ⟨hm2, hg2⟩ := runOps_mono ops q1 pushed popped out hg1 h
        exact ⟨Mono_trans hg hg1 hm1 hm2, hg2⟩
      | some v =>
        obtain ⟨hm2, hg2⟩ := runOps_mono ops q1 pushed (popped ++ [v]) out hg1 h
        exact ⟨Mono_trans hg hg1 hm1 hm2, hg2⟩

/-- C5: along any sequence of `push` / `try_pop` calls from a state with
well-formed node identities, a node present before and after never sees its
push or pop cursor decrease, and a next-link that was set (node `p.1`
followed by node `p.2` in the chain) is still set to the same node
afterwards, as long as its node is still in the chain.  (Nodes removed from
the chain are handed to reclamation and never return, so the per-node
guarantee is vacuous for them.) -/
theorem C5_cursor_link_monotone (N fuel : Nat) (ops : List Op)
    (q q' : QState) (pushed popped P R : List Nat)
    (hg : GoodIds q)
    (h : runOps N fuel ops q pushed popped = some (q', P, R)) :
    (∀ n ∈ q.segs, ∀ n' ∈ q'.segs, n.nid = n'.nid →
      n.pop_idx ≤ n'.pop_idx ∧ n.push_idx ≤ n'.push_idx) ∧
    (∀ p ∈ linkPairs q, p.1 ∈ idsOf q' → p ∈ linkPairs q') ∧
    GoodIds q' :=
  ⟨(runOps_mono ops q pushed popped (q', P, R) hg h).1.2.2.1,
   (runOps_mono ops q pushed popped (q', P, R) hg h).1.2.2.2,
   (runOps_mono ops q pushed popped (q', P, R) hg h).2⟩

/-- Witness for C5 at a concrete input: two pushes and a pop on a
capacity-1 queue (the run crosses a segment boundary). -/
theorem C5_cursor_link_monotone_witness :
    (∀ n ∈ (initQ 1).segs,
      ∀ n' ∈ [(⟨0, 1, 2, [MVal.tombV]⟩ : Node), ⟨1, 0, 1, [⟨4, false⟩]⟩],
        n.nid = n'.nid → n.pop_idx ≤ n'.pop_idx ∧ n.push_idx ≤ n'.push_idx) ∧
    (∀ p ∈ linkPairs (initQ 1),
      p.1 ∈ idsOf ⟨[⟨0, 1, 2, [MVal.tombV]⟩, ⟨1, 0, 1, [⟨4, false⟩]⟩], 1, 2⟩ →
      p ∈ linkPairs ⟨[⟨0, 1, 2, [MVal.tombV]⟩, ⟨1, 0, 1, [⟨4, false⟩]⟩], 1, 2⟩) ∧
    GoodIds ⟨[⟨0, 1, 2, [MVal.tombV]⟩, ⟨1, 0, 1, [⟨4, false⟩]⟩], 1, 2⟩ :=
  C5_cursor_link_monotone 1 2 [Op.push 3, Op.push 4, Op.pop] (initQ 1)
    ⟨[⟨0, 1, 2, [MVal.tombV]⟩, ⟨1, 0, 1, [⟨4, false⟩]⟩], 1, 2⟩
    [] [] [3, 4] [3] (by decide) (by decide)

/-! ## Slot lifecycle, bounded spin, reclamation paths -/

lemma pushLoop_places {N v : Nat} :
    ∀ (fuel : Nat) (q q' : QState), pushLoop N v fuel q = some q' →
      ∃ n ∈ q'.segs, ∃ i : Nat, n.entries[i]? = some (MVal.mk v false)
  | 0, q, q', h => by simp [pushLoop] at h
  | fuel + 1, q, q', h => by
    rcases ht : q.segs[q.tailIdx]? with _ | t
    · rw [pushLoop, ht] at h
      simp at h
    · have hklt : q.tailIdx < q.segs.length := by
        rcases List.getElem?_eq_some_iff.mp ht with ⟨hlt, -⟩
        exact hlt
      simp only [pushLoop, ht] at h
      by_cases hfull : N ≤ t.push_idx
      · rw [if_pos hfull] at h
        by_cases hmoved : ((q.segs.set q.tailIdx
            { t with push_idx := t.push_idx + 1 })[q.tailIdx]?).map Node.nid
            ≠ some t.nid
        · rw [if_pos hmoved] at h
          exact pushLoop_places fuel _ q' h
        · rw [if_neg hmoved] at h
          rcases hnx : (q.segs.set q.tailIdx
              { t with push_idx := t.push_idx + 1 })[q.tailIdx + 1]? with _ | nx
          · simp only [hnx, Option.some.injEq] at h
            subst h
            exact ⟨mkNode N q.allocs v, by simp, 0, by simp [mkNode]⟩
          · simp only [hnx] at h
            exact pushLoop_places fuel _ q' h
      · rw [if_neg hfull] at h
        rcases hcell : t.entries[t.push_idx]? with _ | cell
        · simp [hcell] at h
        · simp only [hcell] at h
          have hplt : t.push_idx < t.entries.length := by
            rcases List.getElem?_eq_some_iff.mp hcell with ⟨hlt, -⟩
            exact hlt
          by_cases hc : cell = MVal.emptyV
          · rw [if_pos hc] at h
            simp only [Option.some.injEq] at h
            subst h
            refine ⟨⟨t.nid, t.pop_idx, t.push_idx + 1,
              t.entries.set t.push_idx (MVal.mk v false)⟩, ?_, t.push_idx, ?_⟩
            · exact List.mem_set _ _ (by simpa using hklt) _
            · exact List.getElem?_set_self (by simpa using hplt)
          · rw [if_neg hc] at h
            exact pushLoop_places fuel _ q' h

lemma spinIters_le (obs : Nat → MVal) :
    ∀ (budget k : Nat), spinIters obs budget k ≤ budget
  | 0, k => le_refl 0
  | b + 1, k => by
    unfold spinIters
    by_cases h : obs k = MVal.emptyV
    · rw [if_pos h]
      have := spinIters_le obs b (k + 1)
      omega
    · rw [if_neg h]
      omega

/-- C6: the slot lifecycle is forward-only and single-winner.  The publish
compare-and-swap (line 226) never moves a cell backwards in the
empty → published → tombstone order; the consume exchange (line 272)
always writes the tombstone and never moves backwards; a successful
publish can only happen on an empty cell, and the published cell can never
be successfully published again; a tombstoned cell makes any publish
compare-and-swap fail and leaves the tombstone in place, also right after
an exchange; and a `push` that completes has placed its value in some slot
of the final chain — the value is re-routed to a later claimed index on a
failed compare-and-swap, never lost. -/
theorem C6_slot_protocol :
    (∀ c v, slotRank c ≤ slotRank (slotCas c v).2) ∧
    (∀ c, (slotXchg c).2 = MVal.tombV ∧ slotRank c ≤ slotRank (slotXchg c).2) ∧
    (∀ c v w, v ≠ 0 → (slotCas c v).1 = true →
      c = MVal.emptyV ∧ (slotCas (slotCas c v).2 w).1 = false) ∧
    (∀ v, slotCas MVal.tombV v = (false, MVal.tombV)) ∧
    (∀ c v, (slotCas (slotXchg c).2 v).1 = false) ∧
    (∀ N v fuel q q', pushLoop N v fuel q = some q' →
      ∃ n ∈ q'.segs, ∃ i : Nat, n.entries[i]? = some (MVal.mk v false)) := by
  refine ⟨?_, ?_, ?_, ?_, ?_, ?_⟩
  · intro c v
    unfold slotCas
    by_cases h : c = MVal.emptyV
    · rw [if_pos h, h]
      simp [slotRank, MVal.emptyV]
    · rw [if_neg h]
  · intro c
    refine ⟨rfl, ?_⟩
    obtain ⟨p, m⟩ := c
    cases m <;> simp [slotRank, slotXchg, MVal.tombV] <;> split <;> omega
  · intro c v w hv hs
    unfold slotCas at hs
    by_cases h : c = MVal.emptyV
    · refine ⟨h, ?_⟩
      rw [h]
      unfold slotCas
      rw [if_pos rfl]
      simp only []
      rw [if_neg (by simp [MVal.emptyV, hv])]
    · rw [if_neg h] at hs
      simp at hs
  · intro v
    unfold slotCas
    rw [if_neg (by simp [MVal.tombV, MVal.emptyV])]
  · intro c v
    show (slotCas MVal.tombV v).1 = false
    unfold slotCas
    rw [if_neg (by simp [MVal.tombV, MVal.emptyV])]
  · intro N v fuel q q' h
    exact pushLoop_places fuel q q' h

/-- C7: the wait for a pending publisher is a bounded spin: for every
sequence of observed cell values the spin performs at most `pop_retries`
iterations (the loop of lines 264-269 is a total function of its
observations, so it always terminates and never blocks), the actions of a
`try_pop` loop iteration never contain more than `pop_retries` polls, and
whenever a valid index was claimed the iteration performs the tombstone
exchange after the spin, whatever the spin observed — including a still
empty slot.  The default retry budget is 10. -/
theorem C7_bounded_spin :
    (∀ obs budget k, spinIters obs budget k ≤ budget) ∧
    (∀ pr e, (popIter pr e).count Act.poll ≤ pr) ∧
    (∀ pr e, e.emptyObserved = false → e.idxOver = false →
      Act.xchgSlot e.idx ∈ popIter pr e) ∧
    pop_retries_default = 10 := by
  refine ⟨spinIters_le, ?_, ?_, rfl⟩
  · intro pr e
    unfold popIter
    by_cases h1 : e.emptyObserved = true
    · rw [if_pos h1]
      simp
    · rw [if_neg h1]
      by_cases h2 : e.idxOver = true
      · rw [if_pos h2]
        by_cases h3 : e.nextNonNull = false
        · rw [if_pos h3]
          simp
        · rw [if_neg h3]
          by_cases h4 : e.headCasOk = true
          · rw [if_pos h4]
            simp
          · rw [if_neg h4]
            simp
      · rw [if_neg h2]
        rw [List.count_append]
        have hs := spinIters_le e.slotObs pr 0
        have hc1 : (List.replicate (spinIters e.slotObs pr 0) Act.poll).count Act.poll
            = spinIters e.slotObs pr 0 := by
          simp
        have hc2 : (Act.xchgSlot e.idx ::
            (if e.xchgNonNull then [Act.ret] else [Act.retry])).count Act.poll = 0 := by
          by_cases h5 : e.xchgNonNull = true
          · rw [if_pos h5]
            simp
          · rw [if_neg h5]
            simp
        omega
  · intro pr e h1 h2
    unfold popIter
    rw [if_neg (by simp [h1]), if_neg (by simp [h2])]
    simp

/-- C9: no node that was linked into the queue is ever freed synchronously.
In every iteration of the `push` loop body, whatever the outcomes of the
contended steps, a synchronous `delete` happens only in the exact path that
allocated a fresh node and then lost the `next` compare-and-swap, and that
path performs no link — the freed node was never published;
`push` never hands a node to deferred reclamation.  In every iteration of
the `try_pop` loop body, a node is handed to deferred reclamation only
after it was unlinked by a successful `head` compare-and-swap on a drained
node with a non-null next, and `try_pop` never frees a node
synchronously. -/
theorem C9_no_sync_free_of_linked :
    (∀ e i, Act.freeNode i ∈ pushIter e →
      pushIter e = [Act.alloc i, Act.freeNode i, Act.retry] ∧ i = e.freshId ∧
      e.nextCasOk = false ∧ ∀ s d, Act.link s d ∉ pushIter e) ∧
    (∀ e i, Act.deferReclaim i ∉ pushIter e) ∧
    (∀ pr e i, Act.deferReclaim i ∈ popIter pr e →
      popIter pr e = [Act.unlinkHead i, Act.deferReclaim i, Act.retry] ∧
      i = e.hId ∧ e.headCasOk = true ∧ e.idxOver = true ∧
      e.nextNonNull = true ∧ e.emptyObserved = false) ∧
    (∀ pr e i, Act.freeNode i ∉ popIter pr e) := by
  refine ⟨?_, ?_, ?_, ?_⟩
  · intro e i h
    obtain ⟨io, tm, nn, nc, co, tid, fid, idx⟩ := e
    cases io <;> cases tm <;> cases nn <;> cases nc <;> cases co <;>
      simp_all [pushIter]
  · intro e i h
    obtain ⟨io, tm, nn, nc, co, tid, fid, idx⟩ := e
    cases io <;> cases tm <;> cases nn <;> cases nc <;> cases co <;>
      simp_all [pushIter]
  · intro pr e i h
    obtain ⟨eo, io, nn, hc, xo, hid, idx, obs⟩ := e
    cases eo <;> cases io <;> cases nn <;> cases hc <;> cases xo <;>
      simp_all [popIter, List.mem_replicate]
  · intro pr e i h
    obtain ⟨eo, io, nn, hc, xo, hid, idx, obs⟩ := e
    cases eo <;> cases io <;> cases nn <;> cases hc <;> cases xo <;>
      simp_all [popIter, List.mem_replicate]

end Ramalhete
